import Mathlib

/-!
# unbundle: splitting a Go compilation unit into buckets

A shallow embedding of `cmd/unbundle/main.go` and the properties of its natural-language
specification, stated over that embedding.

Conventions of the embedding.

* A Go `string` that holds an identifier, a path or a map key is a Lean `String`; the contents of
  a `bytes.Buffer` or of a `byter` are `Bytes`, a list of octets (`utf8` is the conversion that
  `fmt.Fprintf` performs).
* The output of `format.Node` for a declaration is a field `text` of the declaration: the
  printer is not part of the repository and its output is an arbitrary byte string.
* `log.Fatalf` ends the process: a run that reaches it has no result (`none`).
* A Go `map[string]bool` used as a set is a duplicate-free list of its keys. Go leaves the
  order in which `range` visits a map unspecified, and it can differ from loop to loop: the
  order of every call of `writeHeader` is an argument of the run (`RangeOrder`).
* `resulter` values are Go slices. Two map entries of one run share a backing array, the one
  of `utilsBuffer`, so slices are modelled with that array explicit (`Slice`, `State`). How
  much capacity `bytes.Buffer` leaves behind the header is an argument `spare` of the run.
* Functions of the Go standard library whose tables are too large to restate (`strconv.Quote`,
  and `unicode.IsLower`, `IsUpper`, `IsNumber` and `ToLower` above U+00FF) are fields of
  `GoLib`.
* The order in which `range` visits the keys of the result map in `main` is an argument of
  the collision resolver (`resolve`).
-/

namespace Unbundle

/-! ## Bytes and the standard library -/

/-- A byte string: the contents of a `bytes.Buffer`, of a `[]byte` or of a `byter`. -/
abbrev Bytes := List UInt8

/-- The bytes of a Go string (Go strings hold UTF-8). -/
def utf8 (s : String) : Bytes := s.data.flatMap String.utf8EncodeChar

/-- The two bytes written after every declaration: `buf.Write([]byte("\n\n"))`. -/
def nl2 : Bytes := [10, 10]

/-- The functions of the Go standard library that unbundle calls and whose definition is a
table too large to restate here, with the facts about them that the development uses.

* `quote` is `strconv.Quote`, which `fmt` applies for the verb `%q`; distinct strings have
  distinct quotations (`strconv.Unquote` inverts it).
* `lowerHi` and `upperHi` are `unicode.IsLower` and `unicode.IsUpper` on the runes above
  U+00FF (general categories Ll and Lu); no rune is in both categories.
* `numberHi` is `unicode.IsNumber` and `toLowerHi` is `unicode.ToLower` on the runes above
  U+00FF; the lower case of an upper-case letter is a letter, so it is not the underscore. -/
structure GoLib where
  quote : String → String
  quote_inj : ∀ a b, quote a = quote b → a = b
  lowerHi : Char → Bool
  upperHi : Char → Bool
  lower_upper : ∀ c, lowerHi c = true → upperHi c = false
  numberHi : Char → Bool
  toLowerHi : Char → Char
  toLower_upper_ne : ∀ c, upperHi c = true → toLowerHi c ≠ '_'

/-- The Latin-1 part of `unicode.IsLower`: the entries of `unicode.properties` that are `pLl`
(a to z, the micro sign, sharp s to o-diaeresis, o-slash to y-diaeresis). -/
def latin1Lower (n : Nat) : Bool :=
  (97 ≤ n && n ≤ 122) || n == 181 || (223 ≤ n && n ≤ 246) || (248 ≤ n && n ≤ 255)

/-- The Latin-1 part of `unicode.IsUpper`: the entries of `unicode.properties` that are `pLu`
(A to Z, A-grave to O-diaeresis, O-slash to Thorn). -/
def latin1Upper (n : Nat) : Bool :=
  (65 ≤ n && n ≤ 90) || (192 ≤ n && n ≤ 214) || (216 ≤ n && n ≤ 222)

/-- Go: `unicode.IsLower(r)`: the Latin-1 table for `r <= MaxLatin1`, the range tables above. -/
def isLower (lib : GoLib) (r : Char) : Bool :=
  if r.toNat ≤ 255 then latin1Lower r.toNat else lib.lowerHi r

/-- Go: `unicode.IsUpper(r)`. -/
def isUpper (lib : GoLib) (r : Char) : Bool :=
  if r.toNat ≤ 255 then latin1Upper r.toNat else lib.upperHi r

/-- The Latin-1 part of `unicode.IsNumber`: the entries of `unicode.properties` with `pN`
(0 to 9, superscript two, three and one, and the three vulgar fractions). -/
def latin1Number (n : Nat) : Bool :=
  (48 ≤ n && n ≤ 57) || n == 178 || n == 179 || n == 185 || (188 ≤ n && n ≤ 190)

/-- Go: `unicode.IsNumber(r)`. -/
def isNumber (lib : GoLib) (r : Char) : Bool :=
  if r.toNat ≤ 255 then latin1Number r.toNat else lib.numberHi r

/-- Go: `unicode.ToLower(r)`: in Latin-1 the upper-case letters are moved by 32 and every
other rune is left as it is. -/
def toLower (lib : GoLib) (r : Char) : Char :=
  if r.toNat ≤ 255 then (if latin1Upper r.toNat then Char.ofNat (r.toNat + 32) else r)
  else lib.toLowerHi r

/-- Go: the rune returned by `utf8.DecodeRuneInString(s)`: the first rune of `s`, and
`utf8.RuneError` (U+FFFD) for the empty string. -/
def decodeRuneInString (s : String) : Char :=
  match s.data with
  | [] => Char.ofNat 0xFFFD
  | c :: _ => c

/-- A quotation for strings in which `strconv.Quote` escapes nothing (no quote, no backslash,
printable characters only): the string between two double quotes. -/
def plainQuote (s : String) : String := "\"" ++ s ++ "\""

/-- A `GoLib` that agrees with Go on ASCII identifiers and on paths without a character that
`strconv.Quote` escapes; it is used to evaluate the program on such inputs only. -/
def asciiLib : GoLib where
  quote := plainQuote
  quote_inj := by
    intro a b h
    have h1 : (plainQuote a).data = (plainQuote b).data := by rw [h]
    simp only [plainQuote, String.data_append] at h1
    have h2 : a.data = b.data := by simpa using h1
    exact String.ext h2
  lowerHi := fun _ => false
  upperHi := fun _ => false
  lower_upper := by intro c h; rfl
  numberHi := fun _ => false
  toLowerHi := fun c => c
  toLower_upper_ne := by intro c h; exact absurd h Bool.false_ne_true

/-- A `GoLib` that agrees with Go on ASCII and on U+1D400 (mathematical bold capital A), a
letter of category Lu for which Unicode has no lower-case form: `unicode.IsUpper` holds for
it and `unicode.ToLower` returns it unchanged. -/
def boldLib : GoLib where
  quote := asciiLib.quote
  quote_inj := asciiLib.quote_inj
  lowerHi := fun _ => false
  upperHi := fun c => c.toNat == 0x1D400
  lower_upper := by intro c h; exact absurd h Bool.false_ne_true
  numberHi := fun _ => false
  toLowerHi := fun c => c
  toLower_upper_ne := by
    intro c h hc
    have hc2 : c = '_' := hc
    subst hc2
    exact absurd h (by decide)

/-! ## Paths -/

/-- Go: the second result of `filepath.Split(p)` (with the separator `/`): what follows the
last slash, and all of `p` when it has none. -/
def splitFile : List Char → List Char
  | [] => []
  | c :: cs => if '/' ∈ cs then splitFile cs else if c = '/' then cs else c :: cs

/-- The loop of `path.Ext` on the reversed path: `acc` holds what has been passed. -/
def extLoop : List Char → List Char → List Char
  | [], _ => []
  | c :: rest, acc =>
    if c = '/' then [] else if c = '.' then '.' :: acc else extLoop rest (c :: acc)

/-- Go: `path.Ext(p)`: the suffix of `p` from the last dot of its last element, or nothing. -/
def pathExt (p : List Char) : List Char := extLoop p.reverse []

/-- Go: `strings.TrimSuffix(s, suffix)`. -/
def trimSuffix (s suffix : List Char) : List Char :=
  if suffix.isSuffixOf s then s.take (s.length - suffix.length) else s

/-! ## The input of a run -/

/-- Go: `options`, built by `main` from the flags and the argument. -/
structure Options where
  pkgName : String
  targetPkgName : String
  pubUtilName : String
  privUtilName : String
  typesName : String
  isPkg : Bool
  deriving DecidableEq, Repr

/-- Go: `srcFileName` of `unbundle` (lines 242-243): the file part of `opts.pkgName` without
its extension. -/
def srcFileName (o : Options) : String :=
  let file := splitFile o.pkgName.data
  String.mk (trimSuffix file (pathExt file))

/-- An `*ast.ImportSpec`: `name` is `imp.Name.Name` (absent when `imp.Name` is nil) and `path`
is the value of the literal `imp.Path`, as returned by `strconv.Unquote`. -/
structure ImportSpec where
  name : Option String
  path : String
  deriving DecidableEq, Repr

/-- The type expression of a receiver (`ast.Expr`), as far as unbundle inspects it. -/
inductive Expr where
  | ident (name : String)
  | star (x : Expr)
  | paren (x : Expr)
  | index (x : Expr)
  | selector (x : Expr) (sel : String)
  deriving DecidableEq, Repr

/-- Go: `token.Token`, the values a `GenDecl` can carry. -/
inductive Token where
  | IMPORT
  | TYPE
  | VAR
  | CONST
  deriving DecidableEq, Repr

/-- Go: `ast.Spec`; only the name of a type specification is inspected. -/
inductive Spec where
  | typeSpec (name : String)
  | valueSpec
  | importSpec
  deriving DecidableEq, Repr

/-- Go: `ast.Decl`. `text` is what `format.Node` prints for the declaration together with its
comments. `recv` is `fn.Recv` (absent when nil), as the list of the types of its fields. -/
inductive Decl where
  | funcDecl (name : String) (recv : Option (List Expr)) (text : Bytes)
  | genDecl (tok : Token) (specs : List Spec) (text : Bytes)
  | badDecl (text : Bytes)
  deriving DecidableEq, Repr

/-- Go: `ast.File`, as far as unbundle reads it. -/
structure File where
  imports : List ImportSpec
  decls : List Decl
  deriving DecidableEq, Repr

/-! ## Imports and the header -/

/-- Go: the global `importMap`, which the program never fills. -/
def importMap : List (String × String) := []

/-- Go: `isStandardImportPath` (lines 399-406), on the characters of the path. -/
def isStandardImportPath (path : String) : Bool :=
  let i := path.data.indexOf '/'
  let elem := path.data.take i
  !(elem.contains '.')

/-- Go: lines 215-227 of `unbundle`: the path after `importMap`, and the key
`fmt.Sprintf("%s %q", name, path)`. -/
def importPath (imp : ImportSpec) : String :=
  match importMap.lookup imp.path with
  | some newPath => newPath
  | none => imp.path

/-- Go: `spec := fmt.Sprintf("%s %q", name, path)`. -/
def importKey (lib : GoLib) (imp : ImportSpec) : String :=
  imp.name.getD "" ++ " " ++ lib.quote (importPath imp)

/-- Go: `m[key] = true` on a `map[string]bool`. -/
def setInsert (m : List String) (key : String) : List String :=
  if key ∈ m then m else m ++ [key]

/-- Go: the body of the loop of lines 214-233 for one import: `(pkgStd, pkgExt)` after it. -/
def addImport (lib : GoLib) (sets : List String × List String) (imp : ImportSpec) :
    List String × List String :=
  if isStandardImportPath (importPath imp) then (setInsert sets.1 (importKey lib imp), sets.2)
  else (sets.1, setInsert sets.2 (importKey lib imp))

/-- Go: lines 210-234 of `unbundle`: `(pkgStd, pkgExt)` after all files. -/
def importSets (lib : GoLib) (files : List File) : List String × List String :=
  files.foldl (fun sets f => f.imports.foldl (addImport lib) sets) ([], [])

/-- Go: `writeHeader` (lines 408-425): the contents of the buffer after the call. The first
argument is the contents of the buffer before the call. -/
def writeHeader (utilsBuffer : Bytes) (newPackageName : String) (pkgStd pkgExt : List String) :
    Bytes :=
  let b : Bytes := utilsBuffer.take 0
  let newPackageName := if newPackageName = "type" then "types" else newPackageName
  let b := b ++ utf8 ("package " ++ newPackageName ++ "\n\n")
  let b := b ++ utf8 "import (\n"
  let b := pkgStd.foldl (fun b p => b ++ utf8 ("\t" ++ p ++ "\n")) b
  let b := if pkgExt.length > 0 then b ++ utf8 "\n" else b
  let b := pkgExt.foldl (fun b p => b ++ utf8 ("\t" ++ p ++ "\n")) b
  b ++ utf8 ")\n\n"

/-! ## Slices and the result map -/

/-- A Go slice stored in the result map.

* `shared len`: the first `len` bytes of the backing array of `utilsBuffer`. The map entries
  created at lines 248-252 are such slices (`utilsBuffer.Bytes()`), and in package mode two of
  them refer to the same array.
* `own b`: a slice with contents `b` whose backing array no other value refers to (the array
  of `typesBuffer`, of the local `buf` of one declaration, or one allocated by `append`); for
  such a slice it cannot be observed whether `append` writes in place or reallocates. -/
inductive Slice where
  | shared (len : Nat)
  | own (b : Bytes)
  deriving DecidableEq, Repr

/-- The state of the loop of lines 260-393: the backing array of `utilsBuffer` (all of its
capacity) and the map `result`. -/
structure State where
  utils : Bytes
  result : List (String × Slice)
  deriving DecidableEq, Repr

/-- The contents of a slice, given the backing array of `utilsBuffer`. -/
def Slice.bytes (utils : Bytes) : Slice → Bytes
  | .shared len => utils.take len
  | .own b => b

/-- Go: `bytes.smallBufferSize`: the capacity that `bytes.Buffer` allocates at a first write
of at most this many bytes (in older releases the size of its `bootstrap` array). -/
def smallBufferSize : Nat := 64

/-- Go: `append(s, x...)`: the backing array of `utilsBuffer` and the slice returned. When the
capacity suffices, `append` writes `x` into the array right after the slice. -/
def goAppend (utils : Bytes) (s : Slice) (x : Bytes) : Bytes × Slice :=
  match s with
  | .own b => (utils, .own (b ++ x))
  | .shared len =>
    if len + x.length ≤ utils.length then
      (utils.take len ++ x ++ utils.drop (len + x.length), .shared (len + x.length))
    else (utils, .own (utils.take len ++ x))

/-- Go: `v, ok := m[key]`. -/
def getKey {α : Type} : List (String × α) → String → Option α
  | [], _ => none
  | (k, v) :: m, key => if k = key then some v else getKey m key

/-- Go: `m[key] = v`. -/
def setKey {α : Type} : List (String × α) → String → α → List (String × α)
  | [], key, v => [(key, v)]
  | (k, w) :: m, key, v => if k = key then (key, v) :: m else (k, w) :: setKey m key v

/-! ## Classification -/

/-- An append to a bucket, as one declaration causes it: the key, whether the header is
written first when the key is new (the `if !ok { writeHeader(&buf, ...) }` of the method and
type branches), and the bytes of the declaration. -/
structure Op where
  key : String
  header : Bool
  body : Bytes
  deriving DecidableEq, Repr

/-- Go: the key of the private-functions bucket (lines 276 and 282). -/
def privKey (o : Options) : String :=
  if o.isPkg then o.privUtilName else o.privUtilName ++ "_" ++ srcFileName o

/-- Go: the key of the public-functions bucket (lines 278 and 284). -/
def pubKey (o : Options) : String :=
  if o.isPkg then o.pubUtilName else o.pubUtilName ++ "_" ++ srcFileName o

/-- Go: the key of the definitions bucket (lines 255, 257, 385 and 387). -/
def typesKey (o : Options) : String :=
  if o.isPkg then o.typesName else o.typesName ++ "_" ++ srcFileName o

/-- Go: the appends of the `TYPE` branch (lines 358-375): one per type specification, each
with the text of the whole declaration `decl`. -/
def typeOps (text : Bytes) : List Spec → List Op
  | [] => []
  | .typeSpec name :: specs => ⟨name, true, text ++ nl2⟩ :: typeOps text specs
  | _ :: specs => typeOps text specs

/-- Go: the body of the loop over `f.Decls` (lines 262-390), as the appends it performs, in
order; `none` when it reaches `log.Fatalf`. -/
def classify (lib : GoLib) (o : Options) : Decl → Option (List Op)
  | .funcDecl name none text =>
    let firstLetter := decodeRuneInString name
    if isLower lib firstLetter then some [⟨privKey o, false, text ++ nl2⟩]
    else some [⟨pubKey o, false, text ++ nl2⟩]
  | .funcDecl _ (some [.star (.ident id)]) text => some [⟨id, true, text ++ nl2⟩]
  | .funcDecl _ (some [.star _]) _ => none
  | .funcDecl _ (some [.ident id]) text => some [⟨id, true, text ++ nl2⟩]
  | .funcDecl _ (some [_]) _ => some []
  | .funcDecl _ (some _) _ => none
  | .genDecl .IMPORT _ _ => some []
  | .genDecl .TYPE specs text => some (typeOps text specs)
  | .genDecl _ _ text => some [⟨typesKey o, false, text ++ nl2⟩]
  | .badDecl _ => some []

/-- Go: one append to a bucket. For a key that is present it is
`result[key] = append(result[key], buf.Bytes()...)`; for a new key the bucket becomes the
contents of `buf`, which start with the header when the branch wrote it. `hdr key` is what
the call of `writeHeader` for the new bucket `key` leaves in `buf`. -/
def applyOp (hdr : String → Bytes) (σ : State) (op : Op) : State :=
  match getKey σ.result op.key with
  | none =>
    { σ with
      result := setKey σ.result op.key
        (.own ((if op.header then hdr op.key else []) ++ op.body)) }
  | some s =>
    let r := goAppend σ.utils s op.body
    { utils := r.1, result := setKey σ.result op.key r.2 }

/-- Go: one iteration of the loop over `f.Decls`. -/
def declStep (lib : GoLib) (o : Options) (hdr : String → Bytes) (σ : State) (d : Decl) :
    Option State :=
  (classify lib o d).map (fun ops => ops.foldl (applyOp hdr) σ)

/-- Go: the loop over `f.Decls` (lines 261-392). -/
def runDecls (lib : GoLib) (o : Options) (hdr : String → Bytes) :
    State → List Decl → Option State
  | σ, [] => some σ
  | σ, d :: ds =>
    match declStep lib o hdr σ d with
    | none => none
    | some σ1 => runDecls lib o hdr σ1 ds

/-- Go: the loop over `info.Files` (lines 260-393). -/
def runFiles (lib : GoLib) (o : Options) (hdr : String → Bytes) :
    State → List File → Option State
  | σ, [] => some σ
  | σ, f :: fs =>
    match runDecls lib o hdr σ f.decls with
    | none => none
    | some σ1 => runFiles lib o hdr σ1 fs

/-- Go: lines 236-258 of `unbundle`: the state before the first declaration. `hdr` is what
`writeHeader` left in `utilsBuffer` (line 237), `hdrTypes` what it left in `typesBuffer`
(line 240), and `spare` is the capacity of `utilsBuffer` beyond its length (for a header of
at most `smallBufferSize` bytes it is `smallBufferSize - hdr.length`). In single-file mode
line 252 repeats the key of line 251. -/
def initState (o : Options) (hdr hdrTypes : Bytes) (spare : Nat) : State :=
  let src := srcFileName o
  let r : List (String × Slice) := []
  let r :=
    if o.isPkg then
      setKey (setKey r o.privUtilName (.shared hdr.length)) o.pubUtilName (.shared hdr.length)
    else
      setKey (setKey r (o.privUtilName ++ "_" ++ src) (.shared hdr.length))
        (o.privUtilName ++ "_" ++ src) (.shared hdr.length)
  let r :=
    if o.isPkg then setKey r o.typesName (.own hdrTypes)
    else setKey r (o.typesName ++ "_" ++ src) (.own hdrTypes)
  { utils := hdr ++ List.replicate spare 0, result := r }

/-- The bundle that a state holds: every key with the contents of its slice. -/
def State.bundle (σ : State) : List (String × Bytes) :=
  σ.result.map (fun e => (e.1, e.2.bytes σ.utils))

/-- The calls of `writeHeader` in a run of `unbundle`: into `utilsBuffer` (line 237), into
`typesBuffer` (line 240), and into `buf` for a bucket that a method or a type declaration
creates (lines 305, 330 and 366, at most once for a key, as the key is in the map
afterwards). -/
inductive HeaderCall where
  | utils
  | types
  | bucket (key : String)
  deriving DecidableEq, Repr

/-- Go: the order in which the `range` loops of `writeHeader` (lines 415 and 421) visit the
keys of a map, for every call of `writeHeader`: some arrangement of the keys, which Go does
not specify and which can differ from call to call. -/
structure RangeOrder where
  order : HeaderCall → List String → List String
  perm : ∀ c m, (order c m).Perm m

/-- The range order that visits the keys in the order of their insertion, in every call. -/
def insertionOrder : RangeOrder where
  order := fun _ m => m
  perm := fun _ m => List.Perm.refl m

/-- Go: what one call of `writeHeader` in a run leaves in its (empty) buffer: the header for
the module name of the run and its import sets, each visited in the order of this call. -/
def runHeader (lib : GoLib) (ro : RangeOrder) (o : Options) (files : List File)
    (c : HeaderCall) : Bytes :=
  writeHeader [] o.targetPkgName (ro.order c (importSets lib files).1)
    (ro.order c (importSets lib files).2)

/-- Go: `unbundle` (lines 188-396) after a successful `conf.Load()`: `files` is `info.Files`,
`ro` the order of the range loops and `spare` the spare capacity of `utilsBuffer` after
`writeHeader`. The result is the map returned, each slice with its contents, or `none` when
the run ends in `log.Fatalf`. -/
def unbundle (lib : GoLib) (ro : RangeOrder) (spare : Nat) (o : Options)
    (files : List File) : Option (List (String × Bytes)) :=
  (runFiles lib o (fun key => runHeader lib ro o files (.bucket key))
    (initState o (runHeader lib ro o files .utils) (runHeader lib ro o files .types) spare)
    files).map State.bundle

/-! ## File names -/

/-- Go: the closure `isLower` of `SnakeCase` (lines 56-58). -/
def isLowerAt (lib : GoLib) (input : List Char) (idx : Int) : Bool :=
  decide (idx ≥ 0) && decide (idx < input.length) && isLower lib (input.getD idx.toNat ' ')

/-- Go: the closure `isNumber` of `SnakeCase` (lines 59-61). -/
def isNumberAt (lib : GoLib) (input : List Char) (idx : Int) : Bool :=
  decide (idx ≥ 0) && decide (idx < input.length) && isNumber lib (input.getD idx.toNat ' ')

/-- Go: the body of the loop of `SnakeCase` (lines 65-73) for the rune `r` at index `i`: the
slice `out` after it. `input[i - 1]` is read only when `i > 0`. -/
def snakeStep (lib : GoLib) (input : List Char) (out : List Char) (i : Nat) (r : Char) :
    List Char :=
  if isUpper lib r then
    let r := toLower lib r
    let out :=
      if decide (i > 0) && decide (input.getD (i - 1) ' ' ≠ '_') &&
          (isLowerAt lib input ((i : Int) - 1) || isLowerAt lib input ((i : Int) + 1)) then
        out ++ ['_']
      else out
    out ++ [r]
  else
    let out :=
      if decide (i > 0) && decide (input.getD (i - 1) ' ' ≠ '_') &&
          isNumberAt lib input ((i : Int) - 1) then
        out ++ ['_']
      else out
    out ++ [r]

/-- Go: the loop `for i, r := range in` of `SnakeCase` (lines 64-74), from index `i` on. -/
def snakeLoop (lib : GoLib) (input : List Char) : List Char → Nat → List Char → List Char
  | [], _, out => out
  | r :: rest, i, out => snakeLoop lib input rest (i + 1) (snakeStep lib input out i r)

/-- Go: `SnakeCase` (lines 54-77); `[]rune(s)` is the list of the characters of `s`. -/
def SnakeCase (lib : GoLib) (s : String) : String :=
  String.mk (snakeLoop lib s.data s.data 0 [])

/-- Go: `renamedFile := SnakeCase(key) + ".go"` (line 179). -/
def renamedFile (lib : GoLib) (key : String) : String := SnakeCase lib key ++ ".go"

/-! ## The collision resolver -/

/-- Go: `strings.ToLower(s)`: `unicode.ToLower` on every rune. -/
def stringsToLower (lib : GoLib) (s : String) : String := String.mk (s.data.map (toLower lib))

/-- Go: `delete(m, key)`. -/
def delKey {α : Type} : List (String × α) → String → List (String × α)
  | [], _ => []
  | (k, v) :: m, key => if k = key then m else (k, v) :: delKey m key

/-- Go: the body of the loop of lines 158-166 of `main` for the key that `range` produces
next: the keys of `lowercaseNames` and the map `recodes` after it. A key that is not in the
map when its turn comes is not produced. -/
def resolveStep {α : Type} (lib : GoLib) (st : List String × List (String × α))
    (key : String) : List String × List (String × α) :=
  match getKey st.2 key with
  | none => st
  | some code =>
    let recodes :=
      if stringsToLower lib key ∈ st.1 then delKey (setKey st.2 ("_" ++ key) code) key
      else st.2
    (setInsert st.1 (stringsToLower lib key), recodes)

/-- Go: lines 156-166 of `main`: the map `recodes` after the loop, when `range` produces the
keys in the order `order`. Go leaves the order unspecified, and an entry that the loop
inserts may be produced or skipped; `order` lists the keys that are produced. -/
def resolve {α : Type} (lib : GoLib) (order : List String) (recodes : List (String × α)) :
    List (String × α) :=
  (order.foldl (resolveStep lib) ([], recodes)).2

/-- The keys of a map, in the order of the list. -/
def keysOf {α : Type} (m : List (String × α)) : List String := m.map (fun e => e.1)

/-! ## Notions used to state the properties -/

/-- One line of the import block of a header: `fmt.Fprintf(utilsBuffer, "\t%s\n", p)`. -/
def importLine (p : String) : Bytes := utf8 "\t" ++ utf8 p ++ utf8 "\n"

/-- The header as the specification describes it: the module line and a blank line, the
opening of the import block, the standard imports, a blank line when there are external
imports, the external imports, and the closing of the block with a blank line. -/
def headerLayout (moduleName : String) (std ext : List String) : Bytes :=
  utf8 "package " ++ utf8 moduleName ++ utf8 "\n\n" ++ utf8 "import (\n"
    ++ (std.map importLine).flatten ++ (if ext = [] then [] else utf8 "\n")
    ++ (ext.map importLine).flatten ++ utf8 ")\n\n"

/-- The leading segment of an import path as the specification describes it: the characters
before the first slash, and the whole path when it has no slash. -/
def leadingSegment (path : String) : List Char := path.data.takeWhile (fun c => c != '/')

/-- The aliases of the imports are identifiers (also `_` and `.`): they contain no blank. -/
def AliasesWellFormed (files : List File) : Prop :=
  ∀ f ∈ files, ∀ imp ∈ f.imports, ∀ n, imp.name = some n → ' ' ∉ n.data

/-- All imports of a unit, file after file: the order in which lines 213-234 visit them. -/
def allImports (files : List File) : List ImportSpec := files.flatMap (fun f => f.imports)

/-- The contents of the bucket `key` in a state, if the map has the key. -/
def State.bucket (σ : State) (key : String) : Option Bytes :=
  (getKey σ.result key).map (Slice.bytes σ.utils)

/-- All declarations of a unit, file after file: the order in which lines 260-393 visit
them. -/
def allDecls (files : List File) : List Decl := files.flatMap (fun f => f.decls)

/-- The appends that a list of declarations causes, in source order; `none` when one of the
declarations ends the run. -/
def declsOps (lib : GoLib) (o : Options) : List Decl → Option (List Op)
  | [] => some []
  | d :: ds =>
    match classify lib o d with
    | none => none
    | some ops =>
      match declsOps lib o ds with
      | none => none
      | some rest => some (ops ++ rest)

/-- The appends of a whole unit, in source order. -/
def unitOps (lib : GoLib) (o : Options) (files : List File) : Option (List Op) :=
  declsOps lib o (allDecls files)

/-- The byte strings that a sequence of appends adds to the bucket `key`, in order. -/
def bodiesFor (key : String) (ops : List Op) : List Bytes :=
  (ops.filter (fun op => op.key = key)).map (fun op => op.body)

/-- The text, with its separator, of a declaration that is neither a function, nor a type
declaration, nor an import: a `var` or a `const` declaration. -/
def otherBody : Decl → Option Bytes
  | .genDecl .VAR _ text => some (text ++ nl2)
  | .genDecl .CONST _ text => some (text ++ nl2)
  | _ => none

/-- The texts, each with its separator, of the `var` and `const` declarations, in source
order. -/
def otherBodies (ds : List Decl) : List Bytes := ds.filterMap otherBody

/-- What `SnakeCase` writes for a character: its lower case if it is an upper-case letter,
and the character itself otherwise. -/
def lowerImage (lib : GoLib) (r : Char) : Char := if isUpper lib r then toLower lib r else r

/-- Whether the string has a lower-case letter at index `j`. -/
def lowerAt (lib : GoLib) (input : List Char) (j : Nat) : Bool :=
  match input[j]? with
  | some c => isLower lib c
  | none => false

/-- Whether the string has a number at index `j`. -/
def numberAt (lib : GoLib) (input : List Char) (j : Nat) : Bool :=
  match input[j]? with
  | some c => isNumber lib c
  | none => false

/-- Whether a separator stands before the character `r` at index `i`: never before the first
character nor after an underscore; before an upper-case letter when a lower-case letter
precedes or follows it; before any other character when a number precedes it. -/
def sepBefore (lib : GoLib) (input : List Char) (i : Nat) (r : Char) : Bool :=
  decide (0 < i) && decide (input[i - 1]? ≠ some '_') &&
    (if isUpper lib r then lowerAt lib input (i - 1) || lowerAt lib input (i + 1)
     else numberAt lib input (i - 1))

/-- The part of the result of `SnakeCase` that stands for the character `r` at index `i`: a
separator or nothing, and the image of the character. -/
def snakePiece (lib : GoLib) (input : List Char) (i : Nat) (r : Char) : List Char :=
  (if sepBefore lib input i r then ['_'] else []) ++ [lowerImage lib r]

/-- The parts for the characters `rest`, which stand in `input` from index `i` on. -/
def snakePieces (lib : GoLib) (input : List Char) : List Char → Nat → List Char
  | [], _ => []
  | r :: rest, i => snakePiece lib input i r ++ snakePieces lib input rest (i + 1)

/-- The rule of SnakeCase as the specification words it, character by character: the
character lower-cased, with a separator before it exactly when it is an upper-case letter
that a lower-case letter precedes or follows. -/
def statedPieces (lib : GoLib) (input : List Char) : List Char → Nat → List Char
  | [], _ => []
  | r :: rest, i =>
    (if isUpper lib r && ((decide (0 < i) && lowerAt lib input (i - 1)) ||
        lowerAt lib input (i + 1)) then ['_'] else []) ++
      [lowerImage lib r] ++ statedPieces lib input rest (i + 1)

/-- SnakeCase as the specification words it. -/
def statedSnakeCase (lib : GoLib) (s : String) : String :=
  String.mk (statedPieces lib s.data s.data 0)

/-- The contents of one bucket along a sequence of appends when no other bucket interferes:
an append to `key` adds its bytes at the end, and creates the bucket, with the header if the
append asks for it, when the bucket does not exist. -/
def evolve (hdr : Bytes) (key : String) : Option Bytes → List Op → Option Bytes
  | c, [] => c
  | c, op :: ops =>
    evolve hdr key
      (if op.key = key then some (c.getD (if op.header then hdr else []) ++ op.body) else c) ops

/-- The bucket `key` shares its array with no other bucket: its slice is not a slice of the
array of `utilsBuffer`, or no other slice of the map is. -/
def Isolated (σ : State) (key : String) : Prop :=
  (∀ n, getKey σ.result key ≠ some (.shared n)) ∨
  (∀ key2 n, key2 ≠ key → getKey σ.result key2 ≠ some (.shared n))

/-! ## Example inputs -/

/-- A run on a package with the default names of the three fixed buckets (the defaults of
the flags `pubfunc`, `privfunc` and `types`) and the target package `p`. -/
def pkgOptions : Options := ⟨"example.com/pkg", "p", "public_fns", "private_fns", "defs", true⟩

/-- A run on the single file `dir/widget.go`, with the same names. -/
def fileOptions : Options := ⟨"dir/widget.go", "p", "public_fns", "private_fns", "defs", false⟩

/-- The header of a run with the target package `p` and no imports: 23 bytes. -/
def plainHeader : Bytes := utf8 "package p\n\nimport (\n)\n\n"

/-- The declaration `type ( A int; B string )`: one grouped declaration of two types. -/
def groupedTypes : Decl :=
  .genDecl .TYPE [.typeSpec "A", .typeSpec "B"] (utf8 "type (\n\tA int\n\tB string\n)")

/-- The method `func (w (Widget)) Speak() {}`, whose receiver type is parenthesised. -/
def parenMethod : Decl :=
  .funcDecl "Speak" (some [.paren (.ident "Widget")]) (utf8 "func (w (Widget)) Speak() {}")

/-- The free function `func _x() {}`. -/
def underscoreFunc : Decl := .funcDecl "_x" none (utf8 "func _x() {}")

/-- The package of the end-to-end scenario: `Foo`, `bar`, the type `Widget`, its method
`Speak` and a constant block, in this order, in one file without imports. -/
def widgetPackage : List File :=
  [⟨[], [.funcDecl "Foo" none (utf8 "func Foo() {}"),
         .funcDecl "bar" none (utf8 "func bar() {}"),
         .genDecl .TYPE [.typeSpec "Widget"] (utf8 "type Widget struct{}"),
         .funcDecl "Speak" (some [.star (.ident "Widget")]) (utf8 "func (w *Widget) Speak() {}"),
         .genDecl .CONST [.valueSpec] (utf8 "const (\n\tA = 1\n)")]⟩]

/-- A unit of two files that both import `fmt`; the first also imports `github.com/x/y` under
the alias `y`. -/
def twoFilesWithImports : List File :=
  [⟨[⟨none, "fmt"⟩, ⟨some "y", "github.com/x/y"⟩], []⟩, ⟨[⟨none, "fmt"⟩], []⟩]

/-- The method `func (w Widget[T]) Speak() {}`, whose receiver type is an instantiated generic
type. -/
def indexMethod : Decl :=
  .funcDecl "Speak" (some [.index (.ident "Widget")]) (utf8 "func (w Widget[T]) Speak() {}")

/-- The declaration `func (a T, b T) M() {}`, with two receiver parameters. -/
def twoReceivers : Decl :=
  .funcDecl "M" (some [.ident "T", .ident "T"]) (utf8 "func (a T, b T) M() {}")

/-- The method `func (t **T) M() {}`, whose receiver type is a pointer to a pointer. -/
def starStarMethod : Decl :=
  .funcDecl "M" (some [.star (.star (.ident "T"))]) (utf8 "func (t **T) M() {}")

/-- A type declaration with one name. -/
def typeDecl (name : String) : Decl :=
  .genDecl .TYPE [.typeSpec name] (utf8 ("type " ++ name ++ " int"))

/-- A package of one file that declares the types `Foo`, `foo` and `_foo`. -/
def fooFooUnderscore : List File := [⟨[], [typeDecl "Foo", typeDecl "foo", typeDecl "_foo"]⟩]

/-- A package of one file that declares the types `Foo`, `foo` and `FOO`. -/
def fooFooFOO : List File := [⟨[], [typeDecl "Foo", typeDecl "foo", typeDecl "FOO"]⟩]

/-- A package of one file that declares the types `FooBar` and `Foo_Bar`. -/
def fooBarTwice : List File := [⟨[], [typeDecl "FooBar", typeDecl "Foo_Bar"]⟩]

/-- A package of one file with the method `M` of the type `public_fns`, the private function
`initialiseTables` and the declaration of the type `public_fns`, in this order. The type has
the default name of the public-functions bucket. -/
def publicFnsType : List File :=
  [⟨[], [.funcDecl "M" (some [.ident "public_fns"]) (utf8 "func (p public_fns) M() {}"),
         .funcDecl "initialiseTables" none (utf8 "func initialiseTables() {}"),
         .genDecl .TYPE [.typeSpec "public_fns"] (utf8 "type public_fns int")]⟩]

/-- A file with a `var` declaration and a constant block. -/
def varAndConst : List File :=
  [⟨[], [.genDecl .VAR [.valueSpec] (utf8 "var x = 1"),
         .genDecl .CONST [.valueSpec] (utf8 "const (\n\tA = 1\n)")]⟩]

/-- The bundle of a run on the single file `dir/widget.go` with the declarations of
`varAndConst`. -/
def varAndConstBundle : List (String × Bytes) :=
  [("private_fns_widget", plainHeader),
   ("defs_widget", plainHeader ++ utf8 "var x = 1\n\nconst (\n\tA = 1\n)\n\n")]

end Unbundle

namespace Unbundle

/-! ## The header -/

theorem utf8_append (a b : String) : utf8 (a ++ b) = utf8 a ++ utf8 b := by
  simp [utf8, String.data_append, List.flatMap_append]

theorem foldl_importLines (l : List String) (b : Bytes) :
    l.foldl (fun b p => b ++ utf8 ("\t" ++ p ++ "\n")) b = b ++ (l.map importLine).flatten := by
  induction l generalizing b with
  | nil => simp
  | cons p l ih =>
    simp only [List.foldl_cons, List.map_cons, List.flatten_cons]
    rw [ih, utf8_append, utf8_append]
    simp [importLine, List.append_assoc]

/-- The buffer after `writeHeader` has the layout of the specification, for the module name
after the substitution of the reserved name; it does not depend on the buffer before. -/
theorem writeHeader_eq_layout (buf : Bytes) (n : String) (std ext : List String) :
    writeHeader buf n std ext = headerLayout (if n = "type" then "types" else n) std ext := by
  unfold writeHeader headerLayout
  simp only [foldl_importLines]
  simp only [List.take_zero, List.nil_append, utf8_append]
  cases ext with
  | nil => simp [List.append_assoc]
  | cons e es => simp [List.append_assoc]

/-- C9, as amended. For every module name `n`, import sets `std` and `ext` (in their iteration
order) and previous contents `buf` of the buffer, `writeHeader` leaves in the buffer exactly:
the line `package n` (`package types` when `n` is `type`) and a blank line, `import (`, one
tab-indented line per standard import, one blank line if and only if `ext` is non-empty, one
tab-indented line per external import, then `)` and a blank line. The previous contents of the
buffer do not occur in the result. -/
theorem writeHeader_layout (buf : Bytes) (n : String) (std ext : List String) :
    writeHeader buf n std ext = headerLayout (if n = "type" then "types" else n) std ext :=
  writeHeader_eq_layout buf n std ext

/-- C9, as stated, fails for the module name `type`: the first line of the header is not
`package type`. -/
theorem writeHeader_layout_fails_for_type :
    writeHeader [] "type" [] [] ≠ headerLayout "type" [] [] := by
  decide

/-- C10. For all import sets, `writeHeader` with the module name `type` produces the bytes
that it produces with the module name `types`, whose module line is `package types`; for
every other module name `n` the module line is `package n`. -/
theorem reserved_name_substitution (buf buf2 : Bytes) (std ext : List String) :
    writeHeader buf "type" std ext = writeHeader buf2 "types" std ext ∧
    writeHeader buf "type" std ext = headerLayout "types" std ext ∧
    ∀ n : String, n ≠ "type" → writeHeader buf n std ext = headerLayout n std ext := by
  refine ⟨?_, ?_, ?_⟩
  · rw [writeHeader_eq_layout, writeHeader_eq_layout]; simp
  · rw [writeHeader_eq_layout]; simp
  · intro n hn
    rw [writeHeader_eq_layout, if_neg hn]

/-- C10 at the module name `http` with one standard import. -/
theorem reserved_name_substitution_witness :
    writeHeader [] "http" [" \"fmt\""] [] = headerLayout "http" [" \"fmt\""] [] :=
  (reserved_name_substitution [] [] [" \"fmt\""] []).2.2 "http" (by decide)

/-! ## Imports -/

theorem importPath_eq (imp : ImportSpec) : importPath imp = imp.path := rfl

theorem take_indexOf_eq_takeWhile (a : Char) (l : List Char) :
    l.take (l.indexOf a) = l.takeWhile (fun c => c != a) := by
  induction l with
  | nil => rfl
  | cons x xs ih =>
    rw [List.indexOf_cons]
    by_cases h : x = a
    · subst h; simp
    · have h1 : (x == a) = false := by simpa using h
      have h2 : (x != a) = true := by simpa using h
      simp [h1, h2, ih]

theorem isStandardImportPath_iff (p : String) :
    isStandardImportPath p = true ↔ '.' ∉ leadingSegment p := by
  unfold isStandardImportPath leadingSegment
  simp only [take_indexOf_eq_takeWhile]
  simp

theorem mem_setInsert (m : List String) (key s : String) :
    s ∈ setInsert m key ↔ s ∈ m ∨ s = key := by
  unfold setInsert
  by_cases h : key ∈ m
  · rw [if_pos h]
    constructor
    · intro hs; exact Or.inl hs
    · rintro (hs | hs)
      · exact hs
      · rw [hs]; exact h
  · rw [if_neg h]; simp

theorem nodup_setInsert (m : List String) (key : String) (hm : m.Nodup) :
    (setInsert m key).Nodup := by
  unfold setInsert
  by_cases h : key ∈ m
  · rw [if_pos h]; exact hm
  · rw [if_neg h]
    rw [List.nodup_append]
    refine ⟨hm, List.nodup_singleton key, ?_⟩
    intro x hx hx2
    have : x = key := by simpa using hx2
    exact h (this ▸ hx)

theorem importSets_eq_foldl (lib : GoLib) (files : List File) :
    importSets lib files = (allImports files).foldl (addImport lib) ([], []) := by
  unfold importSets allImports
  generalize (([], []) : List String × List String) = init
  induction files generalizing init with
  | nil => rfl
  | cons f fs ih =>
    simp only [List.foldl_cons, List.flatMap_cons, List.foldl_append]
    exact ih _

theorem mem_allImports (files : List File) (imp : ImportSpec) :
    imp ∈ allImports files ↔ ∃ f ∈ files, imp ∈ f.imports := by
  simp [allImports, List.mem_flatMap]

theorem mem_foldl_addImport_fst (lib : GoLib) (l : List ImportSpec)
    (sets : List String × List String) (s : String) :
    s ∈ (l.foldl (addImport lib) sets).1 ↔
      s ∈ sets.1 ∨ ∃ imp ∈ l, isStandardImportPath imp.path = true ∧ importKey lib imp = s := by
  induction l generalizing sets with
  | nil => simp
  | cons i l ih =>
    rw [List.foldl_cons, ih]
    unfold addImport
    rw [importPath_eq]
    by_cases h : isStandardImportPath i.path = true
    · rw [if_pos h]
      simp only [mem_setInsert, List.mem_cons, exists_eq_or_imp]
      constructor
      · rintro ((hs | hs) | hs)
        · exact Or.inl hs
        · exact Or.inr (Or.inl ⟨h, hs.symm⟩)
        · exact Or.inr (Or.inr hs)
      · rintro (hs | ⟨_, hs⟩ | hs)
        · exact Or.inl (Or.inl hs)
        · exact Or.inl (Or.inr hs.symm)
        · exact Or.inr hs
    · rw [if_neg h]
      simp only [List.mem_cons, exists_eq_or_imp]
      constructor
      · rintro (hs | hs)
        · exact Or.inl hs
        · exact Or.inr (Or.inr hs)
      · rintro (hs | ⟨h1, _⟩ | hs)
        · exact Or.inl hs
        · exact absurd h1 h
        · exact Or.inr hs

theorem mem_foldl_addImport_snd (lib : GoLib) (l : List ImportSpec)
    (sets : List String × List String) (s : String) :
    s ∈ (l.foldl (addImport lib) sets).2 ↔
      s ∈ sets.2 ∨ ∃ imp ∈ l, isStandardImportPath imp.path = false ∧ importKey lib imp = s := by
  induction l generalizing sets with
  | nil => simp
  | cons i l ih =>
    rw [List.foldl_cons, ih]
    unfold addImport
    rw [importPath_eq]
    by_cases h : isStandardImportPath i.path = true
    · rw [if_pos h]
      simp only [List.mem_cons, exists_eq_or_imp]
      constructor
      · rintro (hs | hs)
        · exact Or.inl hs
        · exact Or.inr (Or.inr hs)
      · rintro (hs | ⟨h1, _⟩ | hs)
        · exact Or.inl hs
        · rw [h] at h1; exact absurd h1 (by decide)
        · exact Or.inr hs
    · rw [if_neg h]
      have h0 : isStandardImportPath i.path = false := by simpa using h
      simp only [mem_setInsert, List.mem_cons, exists_eq_or_imp]
      constructor
      · rintro ((hs | hs) | hs)
        · exact Or.inl hs
        · exact Or.inr (Or.inl ⟨h0, hs.symm⟩)
        · exact Or.inr (Or.inr hs)
      · rintro (hs | ⟨_, hs⟩ | hs)
        · exact Or.inl (Or.inl hs)
        · exact Or.inl (Or.inr hs.symm)
        · exact Or.inr hs

theorem nodup_foldl_addImport (lib : GoLib) (l : List ImportSpec)
    (sets : List String × List String) (h1 : sets.1.Nodup) (h2 : sets.2.Nodup) :
    (l.foldl (addImport lib) sets).1.Nodup ∧ (l.foldl (addImport lib) sets).2.Nodup := by
  induction l generalizing sets with
  | nil => exact ⟨h1, h2⟩
  | cons i l ih =>
    rw [List.foldl_cons]
    apply ih
    · unfold addImport
      split
      · exact nodup_setInsert _ _ h1
      · exact h1
    · unfold addImport
      split
      · exact h2
      · exact nodup_setInsert _ _ h2

theorem append_cons_cancel (a : Char) (l1 l2 r1 r2 : List Char) (h1 : a ∉ l1) (h2 : a ∉ l2)
    (h : l1 ++ a :: r1 = l2 ++ a :: r2) : l1 = l2 ∧ r1 = r2 := by
  induction l1 generalizing l2 with
  | nil =>
    cases l2 with
    | nil => simpa using h
    | cons y ys =>
      simp only [List.nil_append, List.cons_append, List.cons.injEq] at h
      exact absurd (h.1 ▸ List.mem_cons_self y ys) h2
  | cons x xs ih =>
    cases l2 with
    | nil =>
      simp only [List.nil_append, List.cons_append, List.cons.injEq] at h
      exact absurd (h.1 ▸ List.mem_cons_self x xs) h1
    | cons y ys =>
      simp only [List.cons_append, List.cons.injEq] at h
      have := ih ys (fun hx => h1 (List.mem_cons_of_mem _ hx))
        (fun hy => h2 (List.mem_cons_of_mem _ hy)) h.2
      exact ⟨by rw [h.1, this.1], this.2⟩

/-- Two imports with the same key have the same alias and the same path, when their aliases
hold no blank. -/
theorem importKey_inj (lib : GoLib) (a b : ImportSpec)
    (ha : ∀ n, a.name = some n → ' ' ∉ n.data) (hb : ∀ n, b.name = some n → ' ' ∉ n.data)
    (h : importKey lib a = importKey lib b) :
    a.name.getD "" = b.name.getD "" ∧ a.path = b.path := by
  have hd := congrArg String.data h
  simp only [importKey, String.data_append, importPath_eq, List.append_assoc] at hd
  simp only [List.singleton_append] at hd
  have hna : ' ' ∉ (a.name.getD "").data := by
    cases hn : a.name with
    | none => simp
    | some n => simpa using ha n hn
  have hnb : ' ' ∉ (b.name.getD "").data := by
    cases hn : b.name with
    | none => simp
    | some n => simpa using hb n hn
  have := append_cons_cancel ' ' _ _ _ _ hna hnb hd
  exact ⟨String.ext this.1, lib.quote_inj _ _ (String.ext this.2)⟩

theorem importSets_disjoint (lib : GoLib) (files : List File) (hwf : AliasesWellFormed files) :
    List.Disjoint (importSets lib files).1 (importSets lib files).2 := by
  intro s hs1 hs2
  rw [importSets_eq_foldl, mem_foldl_addImport_fst] at hs1
  rw [importSets_eq_foldl, mem_foldl_addImport_snd] at hs2
  rcases hs1 with hs1 | ⟨a, ha, hstd, hka⟩
  · simp at hs1
  rcases hs2 with hs2 | ⟨b, hb, hext, hkb⟩
  · simp at hs2
  obtain ⟨fa, hfa, hafa⟩ := (mem_allImports files a).1 ha
  obtain ⟨fb, hfb, hbfb⟩ := (mem_allImports files b).1 hb
  have := (importKey_inj lib a b (hwf fa hfa a hafa) (hwf fb hfb b hbfb)
    (hka.trans hkb.symm)).2
  rw [this, hext] at hstd
  exact absurd hstd (by decide)

theorem aliasesWellFormed_twoFiles : AliasesWellFormed twoFilesWithImports := by
  intro f hf imp himp n hn
  simp only [twoFilesWithImports, List.mem_cons, List.mem_singleton, List.not_mem_nil,
    or_false] at hf
  rcases hf with rfl | rfl
  · simp only [List.mem_cons, List.mem_singleton, List.not_mem_nil, or_false] at himp
    rcases himp with rfl | rfl
    · simp at hn
    · simp only [Option.some.injEq] at hn
      subst hn
      decide
  · simp only [List.mem_singleton] at himp
    subst himp
    simp at hn

/-- C7. `isStandardImportPath p` holds if and only if the leading segment of `p` (the
characters before the first slash, or all of `p`) contains no dot; `fmt` is standard and
`github.com/x/y` is external; and in every unit whose import aliases are identifiers, the key
of every import is in exactly one of `pkgStd` and `pkgExt`, the one its path selects, and the
two sets are disjoint. -/
theorem import_classification (lib : GoLib) (files : List File)
    (hwf : AliasesWellFormed files) :
    (∀ p : String, isStandardImportPath p = true ↔ '.' ∉ leadingSegment p) ∧
    isStandardImportPath "fmt" = true ∧
    isStandardImportPath "github.com/x/y" = false ∧
    (∀ f ∈ files, ∀ imp ∈ f.imports,
      (isStandardImportPath imp.path = true ∧ importKey lib imp ∈ (importSets lib files).1 ∧
        importKey lib imp ∉ (importSets lib files).2) ∨
      (isStandardImportPath imp.path = false ∧ importKey lib imp ∈ (importSets lib files).2 ∧
        importKey lib imp ∉ (importSets lib files).1)) ∧
    List.Disjoint (importSets lib files).1 (importSets lib files).2 := by
  have hdis := importSets_disjoint lib files hwf
  refine ⟨isStandardImportPath_iff, by decide, by decide, ?_, hdis⟩
  intro f hf imp himp
  have hall : imp ∈ allImports files := (mem_allImports files imp).2 ⟨f, hf, himp⟩
  by_cases h : isStandardImportPath imp.path = true
  · have hmem : importKey lib imp ∈ (importSets lib files).1 := by
      rw [importSets_eq_foldl, mem_foldl_addImport_fst]
      exact Or.inr ⟨imp, hall, h, rfl⟩
    exact Or.inl ⟨h, hmem, fun h2 => hdis hmem h2⟩
  · have h0 : isStandardImportPath imp.path = false := by simpa using h
    have hmem : importKey lib imp ∈ (importSets lib files).2 := by
      rw [importSets_eq_foldl, mem_foldl_addImport_snd]
      exact Or.inr ⟨imp, hall, h0, rfl⟩
    exact Or.inr ⟨h0, hmem, fun h1 => hdis h1 hmem⟩

/-- C7 at a unit of two files with a standard and an external import. -/
theorem import_classification_witness :
    AliasesWellFormed twoFilesWithImports ∧
    List.Disjoint (importSets asciiLib twoFilesWithImports).1
      (importSets asciiLib twoFilesWithImports).2 :=
  ⟨aliasesWellFormed_twoFiles,
    (import_classification asciiLib twoFilesWithImports aliasesWellFormed_twoFiles).2.2.2.2⟩

/-- The two import sets together list the key of every import exactly once, and nothing
else. -/
theorem importSets_listing (lib : GoLib) (files : List File) (hwf : AliasesWellFormed files) :
    (∀ f ∈ files, ∀ imp ∈ f.imports,
      ((importSets lib files).1 ++ (importSets lib files).2).count (importKey lib imp) = 1) ∧
    (∀ s ∈ (importSets lib files).1 ++ (importSets lib files).2,
      ∃ f ∈ files, ∃ imp ∈ f.imports, importKey lib imp = s) := by
  have hnd := nodup_foldl_addImport lib (allImports files) ([], []) List.nodup_nil List.nodup_nil
  rw [← importSets_eq_foldl] at hnd
  have hnodup : ((importSets lib files).1 ++ (importSets lib files).2).Nodup :=
    List.nodup_append.2 ⟨hnd.1, hnd.2, importSets_disjoint lib files hwf⟩
  refine ⟨?_, ?_⟩
  · intro f hf imp himp
    apply List.count_eq_one_of_mem hnodup
    have hall : imp ∈ allImports files := (mem_allImports files imp).2 ⟨f, hf, himp⟩
    rw [List.mem_append]
    by_cases h : isStandardImportPath imp.path = true
    · left
      rw [importSets_eq_foldl, mem_foldl_addImport_fst]
      exact Or.inr ⟨imp, hall, h, rfl⟩
    · right
      have h0 : isStandardImportPath imp.path = false := by simpa using h
      rw [importSets_eq_foldl, mem_foldl_addImport_snd]
      exact Or.inr ⟨imp, hall, h0, rfl⟩
  · intro s hs
    rw [List.mem_append] at hs
    rcases hs with hs | hs
    · rw [importSets_eq_foldl, mem_foldl_addImport_fst] at hs
      rcases hs with hs | ⟨imp, himp, _, hk⟩
      · simp at hs
      · obtain ⟨f, hf, hif⟩ := (mem_allImports files imp).1 himp
        exact ⟨f, hf, imp, hif, hk⟩
    · rw [importSets_eq_foldl, mem_foldl_addImport_snd] at hs
      rcases hs with hs | ⟨imp, himp, _, hk⟩
      · simp at hs
      · obtain ⟨f, hf, hif⟩ := (mem_allImports files imp).1 himp
        exact ⟨f, hf, imp, hif, hk⟩

/-- C8. In every unit whose import aliases are identifiers, for every call of `writeHeader`
in a run and every order of its range loops, the header written has the layout of
`writeHeader` over the two import sets in that order; the key of every import of every file
is listed exactly once among its import lines, however often the import occurs; every line
listed is the key of some import of the unit; and two imports have the same key only if they
have the same alias and the same path. -/
theorem import_deduplication (lib : GoLib) (ro : RangeOrder) (o : Options)
    (files : List File) (c : HeaderCall) (hwf : AliasesWellFormed files) :
    runHeader lib ro o files c =
      headerLayout (if o.targetPkgName = "type" then "types" else o.targetPkgName)
        (ro.order c (importSets lib files).1) (ro.order c (importSets lib files).2) ∧
    (∀ f ∈ files, ∀ imp ∈ f.imports,
      (ro.order c (importSets lib files).1 ++ ro.order c (importSets lib files).2).count
        (importKey lib imp) = 1) ∧
    (∀ s ∈ ro.order c (importSets lib files).1 ++ ro.order c (importSets lib files).2,
      ∃ f ∈ files, ∃ imp ∈ f.imports, importKey lib imp = s) ∧
    (∀ f ∈ files, ∀ imp ∈ f.imports, ∀ g ∈ files, ∀ imp2 ∈ g.imports,
      importKey lib imp = importKey lib imp2 →
        imp.name.getD "" = imp2.name.getD "" ∧ imp.path = imp2.path) := by
  have hperm : (ro.order c (importSets lib files).1 ++ ro.order c (importSets lib files).2).Perm
      ((importSets lib files).1 ++ (importSets lib files).2) :=
    List.Perm.append (ro.perm c _) (ro.perm c _)
  obtain ⟨hcount, hmem⟩ := importSets_listing lib files hwf
  refine ⟨writeHeader_eq_layout _ _ _ _, ?_, ?_, ?_⟩
  · intro f hf imp himp
    rw [hperm.count_eq]
    exact hcount f hf imp himp
  · intro s hs
    exact hmem s (hperm.mem_iff.1 hs)
  · intro f hf imp himp g hg imp2 himp2 hk
    exact importKey_inj lib imp imp2 (hwf f hf imp himp) (hwf g hg imp2 himp2) hk

/-- C8 at a unit of two files that both import `fmt`: the header lists it once. -/
theorem import_deduplication_witness :
    AliasesWellFormed twoFilesWithImports ∧
    runHeader asciiLib insertionOrder ⟨"pkg", "p", "public_fns", "private_fns", "defs", true⟩
        twoFilesWithImports .utils =
      utf8 "package p\n\nimport (\n\t \"fmt\"\n\n\ty \"github.com/x/y\"\n)\n\n" :=
  ⟨aliasesWellFormed_twoFiles,
    ((import_deduplication asciiLib insertionOrder
      ⟨"pkg", "p", "public_fns", "private_fns", "defs", true⟩
      twoFilesWithImports .utils aliasesWellFormed_twoFiles).1).trans (by decide)⟩

/-! ## The result map and single appends -/

theorem getKey_setKey_self {α : Type} (m : List (String × α)) (key : String) (v : α) :
    getKey (setKey m key v) key = some v := by
  induction m with
  | nil => simp [setKey, getKey]
  | cons e m ih =>
    obtain ⟨k, w⟩ := e
    by_cases h : k = key
    · simp [setKey, getKey, h]
    · simp [setKey, getKey, h, ih]

theorem getKey_setKey_other {α : Type} (m : List (String × α)) (key key2 : String) (v : α)
    (h : key2 ≠ key) : getKey (setKey m key v) key2 = getKey m key2 := by
  induction m with
  | nil =>
    have h2 : ¬ key = key2 := fun e => h e.symm
    simp [setKey, getKey, h2]
  | cons e m ih =>
    obtain ⟨k, w⟩ := e
    by_cases hk : k = key
    · have h2 : ¬ key = key2 := fun e => h e.symm
      have h3 : ¬ k = key2 := by rw [hk]; exact h2
      simp [setKey, getKey, hk, h2]
    · by_cases hk2 : k = key2
      · subst hk2
        simp [setKey, getKey, hk]
      · simp [setKey, getKey, hk, hk2, ih]

theorem goAppend_shared_fit (utils : Bytes) (len : Nat) (x : Bytes)
    (h : len + x.length ≤ utils.length) :
    goAppend utils (.shared len) x =
      (utils.take len ++ x ++ utils.drop (len + x.length), .shared (len + x.length)) := by
  simp [goAppend, h]

theorem goAppend_shared_grow (utils : Bytes) (len : Nat) (x : Bytes)
    (h : ¬ len + x.length ≤ utils.length) :
    goAppend utils (.shared len) x = (utils, .own (utils.take len ++ x)) := by
  simp [goAppend, h]

theorem goAppend_bytes (utils : Bytes) (s : Slice) (x : Bytes) :
    (goAppend utils s x).2.bytes (goAppend utils s x).1 = s.bytes utils ++ x := by
  cases s with
  | own b => rfl
  | shared len =>
    by_cases h : len + x.length ≤ utils.length
    · rw [goAppend_shared_fit _ _ _ h]
      have hlen : (utils.take len ++ x).length = len + x.length := by
        rw [List.length_append, List.length_take]; omega
      show List.take (len + x.length) (utils.take len ++ x ++ utils.drop (len + x.length)) = _
      rw [← hlen, List.take_left]
      rfl
    · rw [goAppend_shared_grow _ _ _ h]; rfl

theorem goAppend_length (utils : Bytes) (s : Slice) (x : Bytes) :
    (goAppend utils s x).1.length = utils.length := by
  cases s with
  | own b => rfl
  | shared len =>
    by_cases h : len + x.length ≤ utils.length
    · rw [goAppend_shared_fit _ _ _ h]
      simp only [List.length_append, List.length_take, List.length_drop]
      omega
    · rw [goAppend_shared_grow _ _ _ h]

theorem applyOp_bucket_self (hdr : String → Bytes) (σ : State) (op : Op) :
    (applyOp hdr σ op).bucket op.key =
      some ((σ.bucket op.key).getD (if op.header then hdr op.key else []) ++ op.body) := by
  unfold applyOp State.bucket
  cases h : getKey σ.result op.key with
  | none => simp [getKey_setKey_self, Slice.bytes]
  | some s => simp [getKey_setKey_self, goAppend_bytes]

theorem applyOp_getKey_other (hdr : String → Bytes) (σ : State) (op : Op) (key : String)
    (h : key ≠ op.key) : getKey (applyOp hdr σ op).result key = getKey σ.result key := by
  unfold applyOp
  cases h2 : getKey σ.result op.key with
  | none => simp [getKey_setKey_other _ _ _ _ h]
  | some s => simp [getKey_setKey_other _ _ _ _ h]

theorem latin1_upper_not_lower (n : Nat) (h : latin1Upper n = true) : latin1Lower n = false := by
  simp only [latin1Upper, latin1Lower, Bool.or_eq_true, Bool.and_eq_true, decide_eq_true_eq,
    beq_iff_eq] at h
  simp only [latin1Lower, Bool.or_eq_false_iff, Bool.and_eq_false_iff, decide_eq_false_iff_not,
    beq_eq_false_iff_ne]
  omega

theorem isUpper_not_isLower (lib : GoLib) (r : Char) (h : isUpper lib r = true) :
    isLower lib r = false := by
  unfold isUpper at h
  unfold isLower
  by_cases h255 : r.toNat ≤ 255
  · rw [if_pos h255] at h
    rw [if_pos h255]
    exact latin1_upper_not_lower _ h
  · rw [if_neg h255] at h
    rw [if_neg h255]
    cases hl : lib.lowerHi r with
    | false => rfl
    | true => rw [lib.lower_upper r hl] at h; exact absurd h (by decide)

/-! ## Free functions -/

/-- C3 fails on the code: the free function `_x`, whose name does not start with an upper-case
letter, is put into the public-functions bucket and not into the private-functions bucket,
which keeps only its header. -/
theorem underscore_function_is_public :
    unbundle asciiLib insertionOrder (smallBufferSize - plainHeader.length) pkgOptions
        [⟨[], [underscoreFunc]⟩] =
      some [("private_fns", plainHeader),
            ("public_fns", plainHeader ++ utf8 "func _x() {}\n\n"),
            ("defs", plainHeader)] := by
  decide

/-! ## Whole runs on the example inputs -/

/-- C1 fails on the code. The text of a grouped declaration of the types `A` and `B` is put
into the bucket `A` and into the bucket `B`, so it occurs twice in the bundle; and the text of
a method whose receiver type is parenthesised is put into no bucket. -/
theorem round_trip_fails :
    unbundle asciiLib insertionOrder (smallBufferSize - plainHeader.length) pkgOptions
        [⟨[], [groupedTypes]⟩] =
      some [("private_fns", plainHeader), ("public_fns", plainHeader), ("defs", plainHeader),
            ("A", plainHeader ++ utf8 "type (\n\tA int\n\tB string\n)\n\n"),
            ("B", plainHeader ++ utf8 "type (\n\tA int\n\tB string\n)\n\n")] ∧
    unbundle asciiLib insertionOrder (smallBufferSize - plainHeader.length) pkgOptions
        [⟨[], [parenMethod]⟩] =
      some [("private_fns", plainHeader), ("public_fns", plainHeader),
            ("defs", plainHeader)] := by
  constructor <;> decide

/-- C5 fails on the code. In the package of the scenario, with the 64 bytes that
`bytes.Buffer` allocates for the header of 23 bytes (41 spare), the text of `bar` is written
over the text of `Foo` in the array that the two function buckets share: the public-functions
bucket holds the header and the text of `bar`, and the text of `Foo` is in no bucket. -/
theorem end_to_end_fails :
    unbundle asciiLib insertionOrder (smallBufferSize - plainHeader.length) pkgOptions widgetPackage =
      some [("private_fns", plainHeader ++ utf8 "func bar() {}\n\n"),
            ("public_fns", plainHeader ++ utf8 "func bar() {}\n\n"),
            ("defs", plainHeader ++ utf8 "const (\n\tA = 1\n)\n\n"),
            ("Widget", plainHeader ++
              utf8 "type Widget struct{}\n\nfunc (w *Widget) Speak() {}\n\n")] := by
  decide

/-! ## Whole runs as sequences of appends -/

theorem declsOps_cons (lib : GoLib) (o : Options) (d : Decl) (ds : List Decl) :
    declsOps lib o (d :: ds) =
      match classify lib o d with
      | none => none
      | some ops =>
        match declsOps lib o ds with
        | none => none
        | some rest => some (ops ++ rest) := rfl

theorem declsOps_append (lib : GoLib) (o : Options) (ds1 ds2 : List Decl) :
    declsOps lib o (ds1 ++ ds2) =
      match declsOps lib o ds1 with
      | none => none
      | some ops1 =>
        match declsOps lib o ds2 with
        | none => none
        | some ops2 => some (ops1 ++ ops2) := by
  induction ds1 with
  | nil =>
    simp only [List.nil_append, declsOps]
    cases declsOps lib o ds2 <;> rfl
  | cons d ds ih =>
    rw [List.cons_append, declsOps_cons, declsOps_cons, ih]
    cases classify lib o d with
    | none => rfl
    | some ops =>
      cases declsOps lib o ds with
      | none => rfl
      | some r1 =>
        cases declsOps lib o ds2 with
        | none => rfl
        | some r2 => simp [List.append_assoc]

theorem runDecls_eq (lib : GoLib) (o : Options) (hdr : String → Bytes) (σ : State) (ds : List Decl) :
    runDecls lib o hdr σ ds =
      (declsOps lib o ds).map (fun ops => ops.foldl (applyOp hdr) σ) := by
  induction ds generalizing σ with
  | nil => rfl
  | cons d ds ih =>
    simp only [runDecls, declStep, declsOps]
    cases classify lib o d with
    | none => rfl
    | some ops =>
      simp only [Option.map_some', ih]
      cases declsOps lib o ds with
      | none => rfl
      | some rest => simp [List.foldl_append]

theorem runFiles_eq (lib : GoLib) (o : Options) (hdr : String → Bytes) (σ : State) (files : List File) :
    runFiles lib o hdr σ files =
      (unitOps lib o files).map (fun ops => ops.foldl (applyOp hdr) σ) := by
  unfold unitOps allDecls
  induction files generalizing σ with
  | nil => rfl
  | cons f fs ih =>
    simp only [runFiles, List.flatMap_cons, declsOps_append, runDecls_eq]
    cases declsOps lib o f.decls with
    | none => rfl
    | some ops1 =>
      simp only [Option.map_some', ih]
      generalize declsOps lib o (fs.flatMap (fun f => f.decls)) = r
      cases r with
      | none => rfl
      | some ops2 => simp [List.foldl_append]

theorem getKey_bundle (σ : State) (key : String) : getKey σ.bundle key = σ.bucket key := by
  unfold State.bundle State.bucket
  induction σ.result with
  | nil => rfl
  | cons e m ih =>
    obtain ⟨k, s⟩ := e
    by_cases h : k = key
    · simp [getKey, h]
    · simp [getKey, h, ih]

/-- A run that returns a bundle is the sequence of the appends of the unit, applied to the
first state; the bundle holds the buckets of the last state. -/
theorem unbundle_eq_some (lib : GoLib) (ro : RangeOrder) (spare : Nat) (o : Options)
    (files : List File) (b : List (String × Bytes))
    (h : unbundle lib ro spare o files = some b) :
    ∃ ops, unitOps lib o files = some ops ∧
      ∀ key, getKey b key =
        (ops.foldl (applyOp (fun k => runHeader lib ro o files (.bucket k)))
          (initState o (runHeader lib ro o files .utils) (runHeader lib ro o files .types)
            spare)).bucket key := by
  unfold unbundle at h
  simp only [runFiles_eq] at h
  cases hops : unitOps lib o files with
  | none => rw [hops] at h; simp at h
  | some ops =>
    rw [hops] at h
    simp only [Option.map_some', Option.some.injEq] at h
    refine ⟨ops, rfl, ?_⟩
    intro key
    rw [← h, getKey_bundle]

/-! ## A bucket that shares its array with no other bucket -/

theorem applyOp_getKey_self_not_shared (hdr : String → Bytes) (σ : State) (op : Op)
    (h : ∀ n, getKey σ.result op.key ≠ some (.shared n)) :
    ∀ n, getKey (applyOp hdr σ op).result op.key ≠ some (.shared n) := by
  intro n
  unfold applyOp
  cases hk : getKey σ.result op.key with
  | none => simp [getKey_setKey_self]
  | some s =>
    cases s with
    | shared m => exact absurd hk (h m)
    | own b => simp [getKey_setKey_self, goAppend]

theorem applyOp_utils_eq (hdr : String → Bytes) (σ : State) (op : Op)
    (h : ∀ n, getKey σ.result op.key ≠ some (.shared n)) : (applyOp hdr σ op).utils = σ.utils := by
  unfold applyOp
  cases hk : getKey σ.result op.key with
  | none => rfl
  | some s =>
    cases s with
    | shared m => exact absurd hk (h m)
    | own b => rfl

theorem applyOp_isolated (hdr : String → Bytes) (σ : State) (op : Op) (key : String)
    (h : Isolated σ key) : Isolated (applyOp hdr σ op) key := by
  rcases h with h | h
  · left
    by_cases hk : op.key = key
    · subst hk
      exact applyOp_getKey_self_not_shared hdr σ op h
    · intro n
      rw [applyOp_getKey_other hdr σ op key (fun e => hk e.symm)]
      exact h n
  · right
    intro key2 n hne
    by_cases hk : op.key = key2
    · subst hk
      exact applyOp_getKey_self_not_shared hdr σ op (fun m => h op.key m hne) n
    · rw [applyOp_getKey_other hdr σ op key2 (fun e => hk e.symm)]
      exact h key2 n hne

theorem applyOp_bucket_other (hdr : String → Bytes) (σ : State) (op : Op) (key : String)
    (h : Isolated σ key) (hne : op.key ≠ key) :
    (applyOp hdr σ op).bucket key = σ.bucket key := by
  unfold State.bucket
  rw [applyOp_getKey_other hdr σ op key (fun e => hne e.symm)]
  cases hk : getKey σ.result key with
  | none => rfl
  | some s =>
    cases s with
    | own b => rfl
    | shared m =>
      rcases h with h | h
      · exact absurd hk (h m)
      · rw [applyOp_utils_eq hdr σ op (fun n => h op.key n hne)]

theorem foldl_applyOp_bucket (hdr : String → Bytes) (key : String) (ops : List Op) (σ : State)
    (h : Isolated σ key) :
    (ops.foldl (applyOp hdr) σ).bucket key = evolve (hdr key) key (σ.bucket key) ops := by
  induction ops generalizing σ with
  | nil => rfl
  | cons op ops ih =>
    rw [List.foldl_cons, ih _ (applyOp_isolated hdr σ op key h)]
    by_cases hk : op.key = key
    · subst hk
      rw [applyOp_bucket_self]
      simp [evolve]
    · rw [applyOp_bucket_other hdr σ op key h hk]
      simp [evolve, hk]

theorem bodiesFor_cons (key : String) (op : Op) (ops : List Op) :
    bodiesFor key (op :: ops) =
      if op.key = key then op.body :: bodiesFor key ops else bodiesFor key ops := by
  unfold bodiesFor
  by_cases h : op.key = key
  · simp [List.filter_cons, h]
  · simp [List.filter_cons, h]

theorem bodiesFor_append (key : String) (ops1 ops2 : List Op) :
    bodiesFor key (ops1 ++ ops2) = bodiesFor key ops1 ++ bodiesFor key ops2 := by
  simp [bodiesFor, List.filter_append]

theorem evolve_some (hdr : Bytes) (key : String) (c : Bytes) (ops : List Op) :
    evolve hdr key (some c) ops = some (c ++ (bodiesFor key ops).flatten) := by
  induction ops generalizing c with
  | nil => simp [evolve, bodiesFor]
  | cons op ops ih =>
    rw [evolve, bodiesFor_cons]
    by_cases hk : op.key = key
    · simp [hk, ih, List.append_assoc]
    · simp [hk, ih]

/-! ## The first state -/

theorem initState_getKey (o : Options) (hdr hdrTypes : Bytes) (spare : Nat) (key : String) :
    getKey (initState o hdr hdrTypes spare).result key =
      if key = typesKey o then some (.own hdrTypes)
      else if key = privKey o ∨ (o.isPkg = true ∧ key = pubKey o) then
        some (.shared hdr.length)
      else none := by
  have hres : (initState o hdr hdrTypes spare).result =
      setKey (setKey (setKey [] (privKey o) (.shared hdr.length))
        (if o.isPkg then pubKey o else privKey o) (.shared hdr.length))
        (typesKey o) (.own hdrTypes) := by
    cases h : o.isPkg <;> simp [initState, privKey, pubKey, typesKey, h]
  rw [hres]
  by_cases ht : key = typesKey o
  · rw [if_pos ht, ht, getKey_setKey_self]
  · rw [if_neg ht, getKey_setKey_other _ _ _ _ ht]
    cases hp : o.isPkg with
    | true =>
      simp only [if_true, true_and]
      by_cases h2 : key = pubKey o
      · rw [h2, getKey_setKey_self]; simp
      · rw [getKey_setKey_other _ _ _ _ h2]
        by_cases h1 : key = privKey o
        · rw [h1, getKey_setKey_self]; simp
        · rw [getKey_setKey_other _ _ _ _ h1]
          simp [h1, h2, getKey]
    | false =>
      simp only [Bool.false_eq_true, if_false, false_and, or_false]
      by_cases h1 : key = privKey o
      · rw [h1, getKey_setKey_self]; simp
      · rw [getKey_setKey_other _ _ _ _ h1, getKey_setKey_other _ _ _ _ h1]
        simp [h1, getKey]

theorem initState_bucket (o : Options) (hdr hdrTypes : Bytes) (spare : Nat) (key : String) :
    (initState o hdr hdrTypes spare).bucket key =
      if key = typesKey o then some hdrTypes
      else if key = privKey o ∨ (o.isPkg = true ∧ key = pubKey o) then some hdr
      else none := by
  unfold State.bucket
  rw [initState_getKey]
  have hu : (initState o hdr hdrTypes spare).utils = hdr ++ List.replicate spare 0 := rfl
  by_cases ht : key = typesKey o
  · simp [ht, Slice.bytes]
  · by_cases h2 : key = privKey o ∨ (o.isPkg = true ∧ key = pubKey o)
    · rw [if_neg ht, if_pos h2, if_neg ht, if_pos h2]
      simp [Slice.bytes, hu]
    · rw [if_neg ht, if_neg h2, if_neg ht, if_neg h2]
      rfl

/-! ## Facts about the classification -/

theorem bodiesFor_singleton_self (T : String) (hd : Bool) (x : Bytes) :
    bodiesFor T [⟨T, hd, x⟩] = [x] := by
  simp [bodiesFor]

theorem bodiesFor_singleton_other (T key : String) (hd : Bool) (x : Bytes) (h : key ≠ T) :
    bodiesFor key [⟨T, hd, x⟩] = [] := by
  have : ¬ T = key := fun e => h e.symm
  simp [bodiesFor, this]

/-! ## Receivers, grouped types and the shared array on example inputs -/

/-- C11 fails on the code. A method whose receiver type is an instantiated generic type does
not end the run: it is skipped, the function after it is classified and a bundle is returned.
Two receiver parameters, and a pointer to something that is not an identifier, do end the
run. -/
theorem malformed_receiver_skipped :
    unbundle asciiLib insertionOrder (smallBufferSize - plainHeader.length) pkgOptions
        [⟨[], [indexMethod, .funcDecl "Foo" none (utf8 "func Foo() {}")]⟩] =
      some [("private_fns", plainHeader),
            ("public_fns", plainHeader ++ utf8 "func Foo() {}\n\n"),
            ("defs", plainHeader)] ∧
    unbundle asciiLib insertionOrder (smallBufferSize - plainHeader.length) pkgOptions
        [⟨[], [twoReceivers]⟩] = none ∧
    unbundle asciiLib insertionOrder (smallBufferSize - plainHeader.length) pkgOptions
        [⟨[], [starStarMethod]⟩] = none := by
  refine ⟨?_, ?_, ?_⟩ <;> decide

/-- C17 fails on the code. In a run on a single file with the grouped declaration of `A` and
`B` and the declaration of `C`, the bucket `A` and the bucket `B` both hold the text of the
whole group, not the text of one sub-declaration; the bucket `C` holds the text of its
declaration once. -/
theorem grouped_types_not_split :
    unbundle asciiLib insertionOrder (smallBufferSize - plainHeader.length) fileOptions
        [⟨[], [groupedTypes, typeDecl "C"]⟩] =
      some [("private_fns_widget", plainHeader), ("defs_widget", plainHeader),
            ("A", plainHeader ++ utf8 "type (\n\tA int\n\tB string\n)\n\n"),
            ("B", plainHeader ++ utf8 "type (\n\tA int\n\tB string\n)\n\n"),
            ("C", plainHeader ++ utf8 "type C int\n\n")] := by
  decide

/-- C19 fails on the code. In a package run, with the 64 bytes that `bytes.Buffer` allocates
for the header of 23 bytes, appending `bar` to the private-functions bucket and then `Foo` to
the public-functions bucket leaves the text of `Foo`, not the text of `bar`, in the
private-functions bucket: the append to the public bucket writes into the array that both
slices share. -/
theorem function_buckets_interfere :
    unbundle asciiLib insertionOrder (smallBufferSize - plainHeader.length) pkgOptions
        [⟨[], [.funcDecl "bar" none (utf8 "func bar() {}"),
               .funcDecl "Foo" none (utf8 "func Foo() {}")]⟩] =
      some [("private_fns", plainHeader ++ utf8 "func Foo() {}\n\n"),
            ("public_fns", plainHeader ++ utf8 "func Foo() {}\n\n"),
            ("defs", plainHeader)] := by
  decide

/-! ## The collision resolver and the file names on example inputs -/

/-- C12 fails on the code. For the package with the types `Foo`, `foo` and `_foo`, when the
resolver visits the keys in the order of their declaration, the bucket `foo` is stored under
`_foo` over the bucket that was there: five buckets are left of six, and the text of the type
`_foo` is in none of them. -/
theorem resolver_overwrites_bucket :
    (unbundle asciiLib insertionOrder (smallBufferSize - plainHeader.length) pkgOptions fooFooUnderscore).map
        (fun b => resolve asciiLib (keysOf b) b) =
      some [("private_fns", plainHeader), ("public_fns", plainHeader), ("defs", plainHeader),
            ("Foo", plainHeader ++ utf8 "type Foo int\n\n"),
            ("_foo", plainHeader ++ utf8 "type foo int\n\n")] := by
  decide

/-- C13 fails on the code. For the package with the types `Foo`, `foo` and `FOO`, when the
resolver visits the keys in the order of their declaration, the keys after resolution include
`_foo` and `_FOO`, which are equal after lower-casing. -/
theorem resolver_leaves_collision :
    (unbundle asciiLib insertionOrder (smallBufferSize - plainHeader.length) pkgOptions fooFooFOO).map
        (fun b => keysOf (resolve asciiLib (keysOf b) b)) =
      some ["private_fns", "public_fns", "defs", "Foo", "_foo", "_FOO"] ∧
    stringsToLower asciiLib "_foo" = stringsToLower asciiLib "_FOO" := by
  constructor <;> decide

/-- C14 fails on the code. For the package with the types `FooBar` and `Foo_Bar` the resolver
renames nothing, and the two buckets are written to the same file `foo_bar.go`. -/
theorem file_names_collide :
    (unbundle asciiLib insertionOrder (smallBufferSize - plainHeader.length) pkgOptions fooBarTwice).map
        (fun b => (resolve asciiLib (keysOf b) b).map
          (fun e => (e.1, renamedFile asciiLib e.1))) =
      some [("private_fns", "private_fns.go"), ("public_fns", "public_fns.go"),
            ("defs", "defs.go"), ("FooBar", "foo_bar.go"), ("Foo_Bar", "foo_bar.go")] := by
  decide

/-! ## SnakeCase, character by character -/

theorem isLowerAt_ofNat (lib : GoLib) (input : List Char) (j : Nat) :
    isLowerAt lib input (j : Int) = lowerAt lib input j := by
  unfold isLowerAt lowerAt
  by_cases h : j < input.length
  · simp [h, List.getD, List.getElem?_eq_getElem h]
  · have h2 : input.length ≤ j := Nat.le_of_not_lt h
    simp [h, List.getElem?_eq_none h2]

theorem isNumberAt_ofNat (lib : GoLib) (input : List Char) (j : Nat) :
    isNumberAt lib input (j : Int) = numberAt lib input j := by
  unfold isNumberAt numberAt
  by_cases h : j < input.length
  · simp [h, List.getD, List.getElem?_eq_getElem h]
  · have h2 : input.length ≤ j := Nat.le_of_not_lt h
    simp [h, List.getElem?_eq_none h2]

theorem getD_ne_iff (input : List Char) (j : Nat) :
    decide (input.getD j ' ' ≠ '_') = decide (input[j]? ≠ some '_') := by
  by_cases h : j < input.length
  · simp [List.getD, List.getElem?_eq_getElem h]
  · have h2 : input.length ≤ j := Nat.le_of_not_lt h
    simp [List.getD, List.getElem?_eq_none h2]

theorem snakeStep_eq (lib : GoLib) (input out : List Char) (i : Nat) (r : Char) :
    snakeStep lib input out i r = out ++ snakePiece lib input i r := by
  have hsucc : ((i : Int) + 1) = ((i + 1 : Nat) : Int) := by simp
  unfold snakeStep snakePiece sepBefore lowerImage
  by_cases hi : 0 < i
  · have hpred : ((i : Int) - 1) = ((i - 1 : Nat) : Int) := by omega
    rw [hpred, hsucc, isLowerAt_ofNat, isLowerAt_ofNat, isNumberAt_ofNat, getD_ne_iff]
    by_cases hu : isUpper lib r = true
    · simp only [hu, if_true]
      split <;> simp
    · simp only [hu, Bool.false_eq_true, if_false]
      split <;> simp
  · have h0 : i = 0 := by omega
    subst h0
    by_cases hu : isUpper lib r = true
    · simp [hu]
    · simp [hu]

theorem snakeLoop_eq (lib : GoLib) (input rest : List Char) (i : Nat) (out : List Char) :
    snakeLoop lib input rest i out = out ++ snakePieces lib input rest i := by
  induction rest generalizing i out with
  | nil => simp [snakeLoop, snakePieces]
  | cons r rest ih =>
    rw [snakeLoop, ih, snakeStep_eq, snakePieces, List.append_assoc]

/-- The result of `SnakeCase` is, character by character, a separator or nothing followed by
the image of the character. -/
theorem snakeCase_data (lib : GoLib) (s : String) :
    (SnakeCase lib s).data = snakePieces lib s.data s.data 0 := by
  unfold SnakeCase
  rw [snakeLoop_eq]
  rfl

theorem snakePieces_cons (lib : GoLib) (input rest : List Char) (r : Char) (i : Nat) :
    snakePieces lib input (r :: rest) i =
      snakePiece lib input i r ++ snakePieces lib input rest (i + 1) := rfl

theorem snakePieces_append (lib : GoLib) (input a b : List Char) (i : Nat) :
    snakePieces lib input (a ++ b) i =
      snakePieces lib input a i ++ snakePieces lib input b (i + a.length) := by
  induction a generalizing i with
  | nil => simp [snakePieces]
  | cons r a ih =>
    rw [List.cons_append, snakePieces_cons, snakePieces_cons, ih, List.length_cons,
      List.append_assoc]
    have : i + 1 + a.length = i + (a.length + 1) := by omega
    rw [this]

/-- The result of `SnakeCase` around the character at index `i`. -/
theorem snakeCase_at (lib : GoLib) (s : String) (i : Nat) (r : Char)
    (hr : s.data[i]? = some r) :
    (SnakeCase lib s).data =
      snakePieces lib s.data (s.data.take i) 0 ++ snakePiece lib s.data i r ++
        snakePieces lib s.data (s.data.drop (i + 1)) (i + 1) := by
  obtain ⟨hlt, hget⟩ := List.getElem?_eq_some_iff.1 hr
  have hsplit : s.data = s.data.take i ++ r :: s.data.drop (i + 1) := by
    rw [← hget]
    exact (List.take_append_drop i s.data).symm.trans (by rw [List.drop_eq_getElem_cons hlt])
  have hlen : (s.data.take i).length = i := by
    rw [List.length_take]; omega
  have key := congrArg (fun l => snakePieces lib s.data l 0) hsplit
  simp only [snakePieces_append, hlen, snakePieces_cons, Nat.zero_add] at key
  rw [snakeCase_data, key, List.append_assoc]

theorem toNat_ofNat_small (n : Nat) (h : n < 0xD800) : (Char.ofNat n).toNat = n := by
  have hv : n.isValidChar := Or.inl h
  unfold Char.ofNat
  rw [dif_pos hv]
  unfold Char.ofNatAux Char.toNat
  simp only [UInt32.toNat]
  show (BitVec.ofNatLt n _).toNat = n
  simp

theorem latin1Upper_bounds (n : Nat) (h : latin1Upper n = true) :
    65 ≤ n ∧ n ≤ 222 ∧ latin1Upper (n + 32) = false := by
  simp only [latin1Upper, Bool.or_eq_true, Bool.and_eq_true, decide_eq_true_eq] at h
  simp only [latin1Upper, Bool.or_eq_false_iff, Bool.and_eq_false_iff, decide_eq_false_iff_not]
  omega

/-- In Latin-1 the lower case of an upper-case letter is 32 further. -/
theorem toLower_latin1 (lib : GoLib) (r : Char) (h255 : r.toNat ≤ 255)
    (hu : isUpper lib r = true) : (toLower lib r).toNat = r.toNat + 32 := by
  unfold isUpper at hu
  rw [if_pos h255] at hu
  unfold toLower
  rw [if_pos h255, if_pos hu]
  exact toNat_ofNat_small _ (by have := latin1Upper_bounds _ hu; omega)

theorem isUpper_underscore (lib : GoLib) : isUpper lib '_' = false := by
  have h : ('_' : Char).toNat = 95 := rfl
  simp [isUpper, h, latin1Upper]

theorem toLower_ne_underscore (lib : GoLib) (r : Char) (hu : isUpper lib r = true) :
    toLower lib r ≠ '_' := by
  by_cases h255 : r.toNat ≤ 255
  · intro h
    have h1 := toLower_latin1 lib r h255 hu
    rw [h] at h1
    have h2 : ('_' : Char).toNat = 95 := rfl
    unfold isUpper at hu
    rw [if_pos h255] at hu
    have := latin1Upper_bounds _ hu
    omega
  · unfold isUpper at hu
    rw [if_neg h255] at hu
    unfold toLower
    rw [if_neg h255]
    exact lib.toLower_upper_ne r hu

theorem lowerImage_eq_underscore_iff (lib : GoLib) (r : Char) :
    lowerImage lib r = '_' ↔ r = '_' := by
  unfold lowerImage
  constructor
  · intro h
    by_cases hu : isUpper lib r = true
    · rw [if_pos hu] at h
      exact absurd h (toLower_ne_underscore lib r hu)
    · rw [if_neg hu] at h
      exact h
  · intro h
    subst h
    rw [isUpper_underscore]
    rfl

theorem filter_snakePiece (lib : GoLib) (input : List Char) (i : Nat) (r : Char) :
    (snakePiece lib input i r).filter (fun c => c != '_') =
      ([r].filter (fun c => c != '_')).map (lowerImage lib) := by
  unfold snakePiece
  rw [List.filter_append]
  have h1 : (if sepBefore lib input i r = true then ['_'] else []).filter
      (fun c => c != '_') = [] := by
    split <;> simp
  rw [h1, List.nil_append]
  by_cases hr : r = '_'
  · have := (lowerImage_eq_underscore_iff lib r).2 hr
    rw [hr] at this
    simp [hr, this]
  · have : lowerImage lib r ≠ '_' := fun h => hr ((lowerImage_eq_underscore_iff lib r).1 h)
    simp [hr, this]

theorem filter_snakePieces (lib : GoLib) (input rest : List Char) (i : Nat) :
    (snakePieces lib input rest i).filter (fun c => c != '_') =
      (rest.filter (fun c => c != '_')).map (lowerImage lib) := by
  induction rest generalizing i with
  | nil => rfl
  | cons r rest ih =>
    rw [snakePieces_cons, List.filter_append, filter_snakePiece, ih]
    have : r :: rest = [r] ++ rest := rfl
    rw [this, List.filter_append, List.map_append]

theorem length_snakePieces (lib : GoLib) (input rest : List Char) (i : Nat) :
    rest.length ≤ (snakePieces lib input rest i).length := by
  induction rest generalizing i with
  | nil => simp
  | cons r rest ih =>
    rw [snakePieces_cons, List.length_append, List.length_cons]
    have h1 := ih (i + 1)
    have h2 : 1 ≤ (snakePiece lib input i r).length := by
      unfold snakePiece
      rw [List.length_append]
      simp
    omega

theorem mem_snakePieces (lib : GoLib) (input rest : List Char) (i : Nat) (c : Char)
    (h : c ∈ snakePieces lib input rest i) : c = '_' ∨ ∃ r ∈ rest, c = lowerImage lib r := by
  induction rest generalizing i with
  | nil => simp [snakePieces] at h
  | cons r rest ih =>
    rw [snakePieces_cons, List.mem_append] at h
    rcases h with h | h
    · unfold snakePiece at h
      rw [List.mem_append] at h
      rcases h with h | h
      · left
        split at h
        · simpa using h
        · simp at h
      · right
        exact ⟨r, List.mem_cons_self r rest, by simpa using h⟩
    · rcases ih (i + 1) h with h1 | ⟨r2, hr2, h2⟩
      · exact Or.inl h1
      · exact Or.inr ⟨r2, List.mem_cons_of_mem _ hr2, h2⟩

theorem lowerAt_of_all_upper (lib : GoLib) (input : List Char)
    (hall : ∀ c ∈ input, isUpper lib c = true) (j : Nat) : lowerAt lib input j = false := by
  unfold lowerAt
  cases h : input[j]? with
  | none => rfl
  | some c =>
    obtain ⟨hlt, hget⟩ := List.getElem?_eq_some_iff.1 h
    have hmem : c ∈ input := hget ▸ List.getElem_mem hlt
    exact isUpper_not_isLower lib c (hall c hmem)

theorem snakePieces_all_upper (lib : GoLib) (input : List Char)
    (hall : ∀ c ∈ input, isUpper lib c = true) (rest : List Char) (i : Nat)
    (hrest : ∀ c ∈ rest, isUpper lib c = true) :
    snakePieces lib input rest i = rest.map (toLower lib) := by
  induction rest generalizing i with
  | nil => rfl
  | cons r rest ih =>
    have hr := hrest r (List.mem_cons_self r rest)
    rw [snakePieces_cons, ih (i + 1) (fun c hc => hrest c (List.mem_cons_of_mem _ hc))]
    unfold snakePiece sepBefore lowerImage
    simp [hr, lowerAt_of_all_upper lib input hall]

theorem lowerImage_not_upper_latin1 (lib : GoLib) (r : Char) (h255 : r.toNat ≤ 255) :
    isUpper lib (lowerImage lib r) = false := by
  unfold lowerImage
  by_cases hu : isUpper lib r = true
  · rw [if_pos hu]
    have h1 := toLower_latin1 lib r h255 hu
    have hu2 := hu
    unfold isUpper at hu2
    rw [if_pos h255] at hu2
    have hb := latin1Upper_bounds _ hu2
    unfold isUpper
    rw [h1, if_pos (by omega)]
    exact hb.2.2
  · rw [if_neg hu]
    simpa using hu

/-! ## The rules of SnakeCase -/

theorem numberAt_ne_underscore (lib : GoLib) (input : List Char) (j : Nat)
    (h : numberAt lib input j = true) : input[j]? ≠ some '_' := by
  intro hj
  unfold numberAt at h
  rw [hj] at h
  have h95 : ('_' : Char).toNat = 95 := rfl
  simp [isNumber, h95, latin1Number] at h

/-- C15, as amended. For every string `s` and every position `i > 0` whose character `r` is
not an upper-case letter: if the character before it is a number and `r` itself is not, the
result of `SnakeCase` is the conversion of the characters before `i`, a separator, `r`, and
the conversion of the characters after `i`; if the character before it is not a number, no
separator stands before `r`, so a digit that follows a non-digit gets none. `Foo1` becomes
`foo1` and `v2beta` becomes `v2_beta`. -/
theorem separator_after_number (lib : GoLib) (s : String) (i : Nat) (r : Char)
    (hi : 0 < i) (hr : s.data[i]? = some r) (hup : isUpper lib r = false) :
    (numberAt lib s.data (i - 1) = true → isNumber lib r = false →
      (SnakeCase lib s).data =
        snakePieces lib s.data (s.data.take i) 0 ++
          '_' :: r :: snakePieces lib s.data (s.data.drop (i + 1)) (i + 1)) ∧
    (numberAt lib s.data (i - 1) = false →
      (SnakeCase lib s).data =
        snakePieces lib s.data (s.data.take i) 0 ++
          r :: snakePieces lib s.data (s.data.drop (i + 1)) (i + 1)) ∧
    SnakeCase asciiLib "Foo1" = "foo1" ∧ SnakeCase asciiLib "v2beta" = "v2_beta" := by
  have hat := snakeCase_at lib s i r hr
  refine ⟨?_, ?_, by decide, by decide⟩
  · intro hnum _
    have hsep : sepBefore lib s.data i r = true := by
      simp [sepBefore, hi, hup, hnum, numberAt_ne_underscore lib s.data (i - 1) hnum]
    rw [hat]
    simp [snakePiece, hsep, lowerImage, hup]
  · intro hnum
    have hsep : sepBefore lib s.data i r = false := by
      simp [sepBefore, hup, hnum]
    rw [hat]
    simp [snakePiece, hsep, lowerImage, hup]

/-- C15, as amended, at `v2beta` and the position of `b`. -/
theorem separator_after_number_witness :
    (SnakeCase asciiLib "v2beta").data =
      snakePieces asciiLib "v2beta".data ("v2beta".data.take 2) 0 ++
        '_' :: 'b' :: snakePieces asciiLib "v2beta".data ("v2beta".data.drop (2 + 1)) (2 + 1) :=
  (separator_after_number asciiLib "v2beta" 2 'b' (by decide) (by decide) (by decide)).1
    (by decide) (by decide)

/-- C15, as stated, fails: `SnakeCase("Foo1")` is not `foo_1`. -/
theorem digit_rule_fails : SnakeCase asciiLib "Foo1" ≠ "foo_1" := by
  decide

/-- C16, as amended. For every string `s`: the result of `SnakeCase` is, character by
character, a separator or nothing followed by the character, lower-cased if it is an
upper-case letter; before an upper-case letter the separator stands exactly when the letter
is not the first character, the character before it is not an underscore, and a lower-case
letter precedes or follows it; before any other character a separator stands only after a
number; for a string of upper-case letters only the result is its
lower-casing, without separator; `HTTPServer` becomes `http_server`; and for a string of
Latin-1 characters the result contains no upper-case letter. -/
theorem snake_case_rule (lib : GoLib) (s : String) :
    (SnakeCase lib s).data = snakePieces lib s.data s.data 0 ∧
    (∀ i r, s.data[i]? = some r → isUpper lib r = true →
      (sepBefore lib s.data i r = true ↔
        0 < i ∧ s.data[i - 1]? ≠ some '_' ∧
          (lowerAt lib s.data (i - 1) = true ∨ lowerAt lib s.data (i + 1) = true))) ∧
    (∀ i r, s.data[i]? = some r → isUpper lib r = false →
      sepBefore lib s.data i r = true → numberAt lib s.data (i - 1) = true) ∧
    ((∀ c ∈ s.data, isUpper lib c = true) →
      (SnakeCase lib s).data = s.data.map (toLower lib)) ∧
    SnakeCase asciiLib "HTTPServer" = "http_server" ∧
    ((∀ c ∈ s.data, c.toNat ≤ 255) →
      ∀ c ∈ (SnakeCase lib s).data, isUpper lib c = false) := by
  refine ⟨snakeCase_data lib s, ?_, ?_, ?_, by decide, ?_⟩
  · intro i r _ hu
    simp [sepBefore, hu, and_assoc]
  · intro i r _ hu hsep
    simp only [sepBefore, hu, Bool.false_eq_true, if_false, Bool.and_eq_true] at hsep
    exact hsep.2
  · intro hall
    rw [snakeCase_data]
    exact snakePieces_all_upper lib s.data hall s.data 0 hall
  · intro h255 c hc
    rw [snakeCase_data] at hc
    rcases mem_snakePieces lib s.data s.data 0 c hc with h | ⟨r, hr, h⟩
    · rw [h]; exact isUpper_underscore lib
    · rw [h]; exact lowerImage_not_upper_latin1 lib r (h255 r hr)

/-- C16, as amended, at the acronym `ABC`. -/
theorem snake_case_rule_witness :
    (SnakeCase asciiLib "ABC").data = "ABC".data.map (toLower asciiLib) :=
  (snake_case_rule asciiLib "ABC").2.2.2.1 (by decide)

/-- C16, as stated, fails. `Foo` becomes `foo`, with no separator before the first letter
although a lower-case letter follows it; in `a_Bc` no separator is put after the underscore;
in `a1b` a separator is put before the lower-case `b`; and U+1D400, an upper-case letter
without lower-case form, stays in the result. -/
theorem snake_case_rule_fails :
    SnakeCase asciiLib "Foo" ≠ statedSnakeCase asciiLib "Foo" ∧
    SnakeCase asciiLib "a_Bc" ≠ statedSnakeCase asciiLib "a_Bc" ∧
    SnakeCase asciiLib "a1b" ≠ statedSnakeCase asciiLib "a1b" ∧
    isUpper boldLib (Char.ofNat 0x1D400) = true ∧
    SnakeCase boldLib (String.mk [Char.ofNat 0x1D400]) = String.mk [Char.ofNat 0x1D400] := by
  refine ⟨?_, ?_, ?_, ?_, ?_⟩ <;> decide

/-- C20. For every string `s`, deleting every underscore from `SnakeCase(s)` gives what
deleting every underscore from `s` and lower-casing its upper-case letters gives; and
`SnakeCase(s)` has at least as many characters as `s`. -/
theorem snake_case_keeps_characters (lib : GoLib) (s : String) :
    (SnakeCase lib s).data.filter (fun c => c != '_') =
      (s.data.filter (fun c => c != '_')).map (lowerImage lib) ∧
    s.length ≤ (SnakeCase lib s).length := by
  constructor
  · rw [snakeCase_data]
    exact filter_snakePieces lib s.data s.data 0
  · show s.data.length ≤ (SnakeCase lib s).data.length
    rw [snakeCase_data]
    exact length_snakePieces lib s.data s.data 0

/-! ## The definitions bucket -/

theorem classify_of_otherBody (lib : GoLib) (o : Options) (d : Decl) (x : Bytes)
    (h : otherBody d = some x) : classify lib o d = some [⟨typesKey o, false, x⟩] := by
  unfold otherBody at h
  split at h
  · simp only [Option.some.injEq] at h
    subst h
    simp [classify]
  · simp only [Option.some.injEq] at h
    subst h
    simp [classify]
  · simp at h

/-- The texts that a partial function picks from the declarations are, in source order, among
the texts appended to the key `K`, when each declaration it picks is one append to `K`. -/
theorem picked_sublist (lib : GoLib) (o : Options) (K : String) (f : Decl → Option Bytes)
    (hf : ∀ d x, f d = some x → ∃ hd, classify lib o d = some [⟨K, hd, x⟩])
    (ds : List Decl) (ops : List Op) (h : declsOps lib o ds = some ops) :
    (ds.filterMap f).Sublist (bodiesFor K ops) := by
  induction ds generalizing ops with
  | nil =>
    simp only [declsOps, Option.some.injEq] at h
    subst h
    simp [bodiesFor]
  | cons d ds ih =>
    rw [declsOps_cons] at h
    cases hc : classify lib o d with
    | none => rw [hc] at h; simp at h
    | some ops1 =>
      rw [hc] at h
      cases hr : declsOps lib o ds with
      | none => rw [hr] at h; simp at h
      | some rest =>
        rw [hr] at h
        simp only [Option.some.injEq] at h
        subst h
        rw [bodiesFor_append]
        have ih2 := ih rest hr
        cases hm : f d with
        | none =>
          rw [List.filterMap_cons_none hm]
          exact ih2.trans (List.sublist_append_right _ _)
        | some x =>
          rw [List.filterMap_cons_some hm]
          obtain ⟨hd, h1⟩ := hf d x hm
          rw [hc] at h1
          simp only [Option.some.injEq] at h1
          subst h1
          rw [bodiesFor_singleton_self]
          exact List.Sublist.cons₂ x ih2

/-- Without the declarations that a partial function picks, the unit causes the same appends
to every key other than `K`, when each declaration it picks is one append to `K`. -/
theorem declsOps_without_picked (lib : GoLib) (o : Options) (K : String)
    (f : Decl → Option Bytes)
    (hf : ∀ d x, f d = some x → ∃ hd, classify lib o d = some [⟨K, hd, x⟩])
    (ds : List Decl) (ops : List Op) (h : declsOps lib o ds = some ops) :
    ∃ ops2, declsOps lib o (ds.filter (fun d => !(f d).isSome)) = some ops2 ∧
      ∀ key, key ≠ K → bodiesFor key ops2 = bodiesFor key ops := by
  induction ds generalizing ops with
  | nil =>
    simp only [declsOps, Option.some.injEq] at h
    subst h
    exact ⟨[], rfl, fun _ _ => rfl⟩
  | cons d ds ih =>
    rw [declsOps_cons] at h
    cases hc : classify lib o d with
    | none => rw [hc] at h; simp at h
    | some ops1 =>
      rw [hc] at h
      cases hr : declsOps lib o ds with
      | none => rw [hr] at h; simp at h
      | some rest =>
        rw [hr] at h
        simp only [Option.some.injEq] at h
        subst h
        obtain ⟨ops2, h2, h3⟩ := ih rest hr
        cases hm : f d with
        | none =>
          have hkeep : (!(f d).isSome) = true := by simp [hm]
          refine ⟨ops1 ++ ops2, ?_, ?_⟩
          · rw [List.filter_cons]
            simp only [hkeep, if_true]
            rw [declsOps_cons, hc, h2]
          · intro key hkey
            rw [bodiesFor_append, bodiesFor_append, h3 key hkey]
        | some x =>
          have hdrop : (!(f d).isSome) = false := by simp [hm]
          obtain ⟨hd, h1⟩ := hf d x hm
          rw [hc] at h1
          simp only [Option.some.injEq] at h1
          subst h1
          refine ⟨ops2, ?_, ?_⟩
          · rw [List.filter_cons]
            simp only [hdrop, Bool.false_eq_true, if_false]
            exact h2
          · intro key hkey
            rw [bodiesFor_append, bodiesFor_singleton_other K key hd x hkey, h3 key hkey]
            rfl

/-! ## The base name of the source file -/

theorem splitFile_of_no_slash (rest : List Char) (h : '/' ∉ rest) : splitFile rest = rest := by
  cases rest with
  | nil => rfl
  | cons c cs =>
    have h1 : '/' ∉ cs := fun hc => h (List.mem_cons_of_mem _ hc)
    have h2 : ¬ c = '/' := fun hc => h (hc ▸ List.mem_cons_self c cs)
    simp [splitFile, h1, h2]

theorem splitFile_after_slash (dir rest : List Char) (h : '/' ∉ rest) :
    splitFile (dir ++ '/' :: rest) = rest := by
  induction dir with
  | nil => simp [splitFile, h]
  | cons c dir ih =>
    have hmem : '/' ∈ dir ++ '/' :: rest := by simp
    rw [List.cons_append, splitFile, if_pos hmem, ih]

theorem extLoop_to_dot (e rest acc : List Char) (h1 : '/' ∉ e) (h2 : '.' ∉ e) :
    extLoop (e ++ '.' :: rest) acc = '.' :: (e.reverse ++ acc) := by
  induction e generalizing acc with
  | nil => simp [extLoop]
  | cons c e ih =>
    have hc1 : ¬ c = '/' := fun hc => h1 (hc ▸ List.mem_cons_self c e)
    have hc2 : ¬ c = '.' := fun hc => h2 (hc ▸ List.mem_cons_self c e)
    rw [List.cons_append, extLoop, if_neg hc1, if_neg hc2,
      ih (c :: acc) (fun hx => h1 (List.mem_cons_of_mem _ hx))
        (fun hx => h2 (List.mem_cons_of_mem _ hx))]
    simp

theorem pathExt_of_dot (stem ext : List Char) (h1 : '/' ∉ ext) (h2 : '.' ∉ ext) :
    pathExt (stem ++ '.' :: ext) = '.' :: ext := by
  unfold pathExt
  have hrev : (stem ++ '.' :: ext).reverse = ext.reverse ++ '.' :: stem.reverse := by simp
  rw [hrev, extLoop_to_dot _ _ _ (by simpa using h1) (by simpa using h2)]
  simp

theorem trimSuffix_append (stem suffix : List Char) :
    trimSuffix (stem ++ suffix) suffix = stem := by
  unfold trimSuffix
  have hs : suffix.isSuffixOf (stem ++ suffix) = true :=
    List.isSuffixOf_iff_suffix.2 (List.suffix_append _ _)
  rw [if_pos hs]
  simp

/-- The base name of the source file: for a path whose last element is `stem.ext`, after a
directory or without one, `srcFileName` is `stem`. -/
theorem srcFileName_eq (o : Options) (dir stem ext : List Char) (hs : '/' ∉ stem)
    (h1 : '/' ∉ ext) (h2 : '.' ∉ ext)
    (hp : o.pkgName.data = stem ++ '.' :: ext ∨
      o.pkgName.data = dir ++ '/' :: (stem ++ '.' :: ext)) :
    srcFileName o = String.mk stem := by
  have hfile : splitFile o.pkgName.data = stem ++ '.' :: ext := by
    have hno : '/' ∉ stem ++ '.' :: ext := by
      simp only [List.mem_append, List.mem_cons, not_or]
      exact ⟨hs, by decide, h1⟩
    rcases hp with hp | hp
    · rw [hp]; exact splitFile_of_no_slash _ hno
    · rw [hp]; exact splitFile_after_slash _ _ hno
  unfold srcFileName
  simp only [hfile, pathExt_of_dot stem ext h1 h2, trimSuffix_append]

/-- C18. For every unit and every run that returns a bundle: every `var` or `const`
declaration is classified as one append, to the definitions bucket; that bucket is the header
written into `typesBuffer` followed by all the texts appended to it, in source order, among
which the texts of these declarations occur in source order; no other bucket receives
anything from them (without them the unit causes the same appends to every other key);
an import declaration causes no append; and the key of the definitions bucket is
`typesName` in package mode and `typesName`, an underscore and the base name of the source
file in single-file mode, where the base name of a path `dir/stem.ext` or `stem.ext` is
`stem`. -/
theorem other_declarations_to_definitions (lib : GoLib) (ro : RangeOrder) (spare : Nat)
    (o : Options) (files : List File) (b : List (String × Bytes))
    (hrun : unbundle lib ro spare o files = some b) :
    ∃ ops, unitOps lib o files = some ops ∧
      getKey b (typesKey o) =
        some (runHeader lib ro o files .types ++ (bodiesFor (typesKey o) ops).flatten) ∧
      (otherBodies (allDecls files)).Sublist (bodiesFor (typesKey o) ops) ∧
      (∀ d ∈ allDecls files, ∀ x, otherBody d = some x →
        classify lib o d = some [⟨typesKey o, false, x⟩]) ∧
      (∃ ops2, declsOps lib o ((allDecls files).filter (fun d => !(otherBody d).isSome)) =
          some ops2 ∧
        ∀ key, key ≠ typesKey o → bodiesFor key ops2 = bodiesFor key ops) ∧
      (∀ specs text, classify lib o (.genDecl .IMPORT specs text) = some []) ∧
      typesKey o = (if o.isPkg then o.typesName else o.typesName ++ "_" ++ srcFileName o) ∧
      (∀ dir stem ext : List Char, '/' ∉ stem → '/' ∉ ext → '.' ∉ ext →
        (o.pkgName.data = stem ++ '.' :: ext ∨
          o.pkgName.data = dir ++ '/' :: (stem ++ '.' :: ext)) →
        srcFileName o = String.mk stem) := by
  obtain ⟨ops, hops, hget⟩ := unbundle_eq_some lib ro spare o files b hrun
  have hf : ∀ d x, otherBody d = some x →
      ∃ hd, classify lib o d = some [⟨typesKey o, hd, x⟩] :=
    fun d x hx => ⟨false, classify_of_otherBody lib o d x hx⟩
  have hiso : Isolated (initState o (runHeader lib ro o files .utils)
      (runHeader lib ro o files .types) spare) (typesKey o) := by
    left
    intro n
    rw [initState_getKey, if_pos rfl]
    simp
  refine ⟨ops, hops, ?_,
    picked_sublist lib o (typesKey o) otherBody hf (allDecls files) ops hops,
    fun d _ x hx => classify_of_otherBody lib o d x hx,
    declsOps_without_picked lib o (typesKey o) otherBody hf (allDecls files) ops hops,
    fun _ _ => rfl, rfl,
    fun dir stem ext hs h1 h2 hp => srcFileName_eq o dir stem ext hs h1 h2 hp⟩
  rw [hget, foldl_applyOp_bucket _ _ _ _ hiso, initState_bucket, if_pos rfl, evolve_some]

/-- C18 at a run on the single file `dir/widget.go` with a `var` declaration and a constant
block. -/
theorem other_declarations_to_definitions_witness :
    ∃ ops, unitOps asciiLib fileOptions varAndConst = some ops ∧
      getKey varAndConstBundle (typesKey fileOptions) =
        some (runHeader asciiLib insertionOrder fileOptions varAndConst .types ++
          (bodiesFor (typesKey fileOptions) ops).flatten) ∧
      (otherBodies (allDecls varAndConst)).Sublist (bodiesFor (typesKey fileOptions) ops) ∧
      (∀ d ∈ allDecls varAndConst, ∀ x, otherBody d = some x →
        classify asciiLib fileOptions d = some [⟨typesKey fileOptions, false, x⟩]) ∧
      (∃ ops2, declsOps asciiLib fileOptions
          ((allDecls varAndConst).filter (fun d => !(otherBody d).isSome)) = some ops2 ∧
        ∀ key, key ≠ typesKey fileOptions → bodiesFor key ops2 = bodiesFor key ops) ∧
      (∀ specs text, classify asciiLib fileOptions (.genDecl .IMPORT specs text) = some []) ∧
      typesKey fileOptions =
        (if fileOptions.isPkg then fileOptions.typesName
         else fileOptions.typesName ++ "_" ++ srcFileName fileOptions) ∧
      (∀ dir stem ext : List Char, '/' ∉ stem → '/' ∉ ext → '.' ∉ ext →
        (fileOptions.pkgName.data = stem ++ '.' :: ext ∨
          fileOptions.pkgName.data = dir ++ '/' :: (stem ++ '.' :: ext)) →
        srcFileName fileOptions = String.mk stem) :=
  other_declarations_to_definitions asciiLib insertionOrder
    (smallBufferSize - plainHeader.length) fileOptions varAndConst varAndConstBundle (by decide)

/-! ## The function buckets and the bucket of a receiver on example inputs -/

/-- C2 fails on the code. In a package run, with the 64 bytes that `bytes.Buffer` allocates
for the header of 23 bytes: after the public function `Get` and the private function `put`,
the public-functions bucket holds the text of `put` and the text of `Get` is in no bucket;
after `put` and `Get`, the text of `Get` is also what the private-functions bucket holds. -/
theorem public_function_text_misplaced :
    unbundle asciiLib insertionOrder (smallBufferSize - plainHeader.length) pkgOptions
        [⟨[], [.funcDecl "Get" none (utf8 "func Get() {}"),
               .funcDecl "put" none (utf8 "func put() {}")]⟩] =
      some [("private_fns", plainHeader ++ utf8 "func put() {}\n\n"),
            ("public_fns", plainHeader ++ utf8 "func put() {}\n\n"),
            ("defs", plainHeader)] ∧
    unbundle asciiLib insertionOrder (smallBufferSize - plainHeader.length) pkgOptions
        [⟨[], [.funcDecl "put" none (utf8 "func put() {}"),
               .funcDecl "Get" none (utf8 "func Get() {}")]⟩] =
      some [("private_fns", plainHeader ++ utf8 "func Get() {}\n\n"),
            ("public_fns", plainHeader ++ utf8 "func Get() {}\n\n"),
            ("defs", plainHeader)] := by
  constructor <;> decide

/-- C4 fails on the code. In a package run on the method `M` of the type `public_fns`, the
private function `initialiseTables` and the declaration of the type, the bucket `public_fns`
holds the header, the text of the private function and the text of the type: the text of the
method, which was appended to the bucket `public_fns`, is in no bucket. -/
theorem method_text_overwritten :
    unbundle asciiLib insertionOrder (smallBufferSize - plainHeader.length) pkgOptions
        publicFnsType =
      some [("private_fns", plainHeader ++ utf8 "func initialiseTables() {}\n\n"),
            ("public_fns", plainHeader ++ utf8 "func initialiseTables() {}\n\n" ++
              utf8 "type public_fns int\n\n"),
            ("defs", plainHeader)] := by
  decide

/-- C6 fails on the code. In a run on a single file with the one public function `Foo`, the
public-functions bucket holds the text of `Foo` and no header; in a package run on the same
file it holds the header and the text. -/
theorem single_file_public_bucket_without_header :
    unbundle asciiLib insertionOrder (smallBufferSize - plainHeader.length) fileOptions
        [⟨[], [.funcDecl "Foo" none (utf8 "func Foo() {}")]⟩] =
      some [("private_fns_widget", plainHeader), ("defs_widget", plainHeader),
            ("public_fns_widget", utf8 "func Foo() {}\n\n")] ∧
    unbundle asciiLib insertionOrder (smallBufferSize - plainHeader.length) pkgOptions
        [⟨[], [.funcDecl "Foo" none (utf8 "func Foo() {}")]⟩] =
      some [("private_fns", plainHeader),
            ("public_fns", plainHeader ++ utf8 "func Foo() {}\n\n"),
            ("defs", plainHeader)] := by
  constructor <;> decide

end Unbundle
